import Mathlib

/-!
# Verification of the coffee-roulette balanced group allocator

A shallow embedding of `script.js`: the group sizer (`computeGroupSizes`),
the quota apportioner (`computeRoleTargets`, Hamilton's largest-remainder
method with two-sided capacity constraints), and the assigner
(`allocateGroups`), together with proofs of the specification's claims.

Modelling conventions:

* A JavaScript number entering `computeGroupSizes` is modelled as
  `Option ℚ`: `none` stands for a non-finite value (`NaN`, `±Infinity`),
  `some q` for a finite value.  The source's floating-point quotients
  `sizes[i] * totalR / n` are modelled exactly: the floor of the quotient
  is `(sizes[i] * totalR) / n` in natural-number division and the
  fractional remainder is represented by its numerator
  `(sizes[i] * totalR) % n` over the common denominator `n`, so all
  remainder comparisons (sorting, best-role selection) compare numerators.
* `Math.random()`-driven shuffles are modelled as oracle parameters
  (`shR`, `shC`, `shL`); theorems quantify over all oracles, with a
  permutation hypothesis exactly where the source relies on
  `shuffleInPlace` returning a rearrangement of its input.
* Thrown errors are modelled with `Except AllocError`; `computeRoleTargets`
  itself throws nothing in the source, so it is a total function.
* `while` loops are translated with an explicit iteration budget that the
  loop provably never exhausts; each budget equals the exact number of
  iterations the corresponding source loop can make before its condition
  must turn false.
-/

/-- A roster entry: `{name, role}` as produced by `parseRoster`. -/
structure Person where
  name : String
  role : String
deriving DecidableEq, Repr

/-- The error kinds thrown by the core (spec §7), in source order:
`'Group Size must be at least 2.'`, `'Internal error: insufficient people
with role "r".'`, `'Internal allocation error: group sizes do not match
targets.'`, `'Internal allocation error: not all people were assigned
exactly once.'`. -/
inductive AllocError where
  | invalidConfiguration
  | insufficientRoleSupply (role : String)
  | groupSizeMismatch
  | notAllAssigned
deriving DecidableEq, Repr

/-- JavaScript `Math.round` on a non-negative value: round half toward
positive infinity, i.e. `⌊x + 1/2⌋`. -/
def jsRound (x : ℚ) : ℤ := ⌊x + 1 / 2⌋

/-- The number of groups `g = Math.max(1, Math.round(n / desiredGroupSize))`
(source line 72). -/
def numGroups (n : ℕ) (q : ℚ) : ℕ := max 1 (jsRound ((n : ℚ) / q)).toNat

/-- The size list for `g` groups (source lines 73–76): `base = ⌊n / g⌋`,
and the first `n - base·g` groups get one extra member. -/
def sizesFor (n g : ℕ) : List ℕ :=
  (List.range g).map (fun i => n / g + if i < n - n / g * g then 1 else 0)

/-- `computeGroupSizes(n, desiredGroupSize)` from `script.js` lines 67–77.
Throws unless the desired size is a finite number `≥ 2`. -/
def computeGroupSizes (n : ℕ) (d : Option ℚ) : Except AllocError (List ℕ) :=
  match d with
  | none => .error .invalidConfiguration
  | some q =>
    if q < 2 then .error .invalidConfiguration
    else .ok (sizesFor n (numGroups n q))

/-- Sum of `f 0, …, f (m-1)`, as the source's `reduce` over an array. -/
def sumOver (m : ℕ) (f : ℕ → ℤ) : ℤ := ((List.range m).map f).sum

/-- Mutable state of the apportioner: per-cell targets, per-role extras,
per-group deficits (`script.js` lines 87–90).  All three are total
functions on indices; entries outside `[0, k) × [0, g)` stay at their
initial value `0`. -/
structure ApSt where
  targets : ℕ → ℕ → ℤ
  extras : ℕ → ℤ
  deficits : ℕ → ℤ

/-- Floor of the ideal quota `sizes[i] * counts[r] / n` (source line 97–98),
with `n = sizes.sum`. -/
def floorQuota (sizes counts : List ℕ) (r i : ℕ) : ℕ :=
  sizes.getD i 0 * counts.getD r 0 / sizes.sum

/-- Numerator (over denominator `n`) of the fractional remainder
`q - ⌊q⌋` recorded at source line 100. -/
def remNum (sizes counts : List ℕ) (r i : ℕ) : ℕ :=
  sizes.getD i 0 * counts.getD r 0 % sizes.sum

/-- The state after the flooring pass (source lines 92–110): targets are
the floors, `extras[r] = counts[r] - Σᵢ floor`, `deficits[i] = sizes[i] -
Σᵣ floor`. -/
def apInit (sizes counts : List ℕ) : ApSt where
  targets := fun r i => (floorQuota sizes counts r i : ℤ)
  extras := fun r =>
    (counts.getD r 0 : ℤ) - sumOver sizes.length (fun i => (floorQuota sizes counts r i : ℤ))
  deficits := fun i =>
    (sizes.getD i 0 : ℤ) - sumOver counts.length (fun r => (floorQuota sizes counts r i : ℤ))

/-- One `+1` bump of cell `(r, i)` (source lines 127–129 and 152–155):
increment the target, decrement the role's extras and the group's
deficit. -/
def bump (r i : ℕ) (st : ApSt) : ApSt where
  targets := fun r' i' => if r' = r ∧ i' = i then st.targets r' i' + 1 else st.targets r' i'
  extras := fun r' => if r' = r then st.extras r' - 1 else st.extras r'
  deficits := fun i' => if i' = i then st.deficits i' - 1 else st.deficits i'

/-- A `(group, role, remainder)` cell of the largest-remainder pass
(source lines 114–119); `rem` is the remainder's numerator over `n`. -/
structure ApCell where
  grp : ℕ
  role : ℕ
  rem : ℕ
deriving DecidableEq, Repr

/-- The full cell list, role-major as built at source lines 115–119. -/
def cellList (sizes counts : List ℕ) : List ApCell :=
  ((List.range counts.length).map (fun r =>
    (List.range sizes.length).map (fun i => ApCell.mk i r (remNum sizes counts r i)))).flatten

/-- Stable insertion keeping larger remainders first; ties keep the
earlier element first, as JavaScript's stable `sort((a,b) => b.rem - a.rem)`. -/
def insertDesc (c : ApCell) : List ApCell → List ApCell
  | [] => [c]
  | d :: rest => if d.rem ≤ c.rem then c :: d :: rest else d :: insertDesc c rest

/-- Stable sort by remainder descending (source line 122). -/
def sortByRemDesc : List ApCell → List ApCell
  | [] => []
  | c :: rest => insertDesc c (sortByRemDesc rest)

/-- One step of the greedy largest-remainder walk (source lines 124–130):
skip the cell unless its role still has extras and its group still has
capacity. -/
def pairsStep (st : ApSt) (c : ApCell) : ApSt :=
  if st.extras c.role ≤ 0 then st
  else if st.deficits c.grp ≤ 0 then st
  else bump c.role c.grp st

/-- The single greedy pass over the ordered cells. -/
def pairsPass (order : List ApCell) (st : ApSt) : ApSt :=
  order.foldl pairsStep st

/-- The best-role scan of the residual pass (source lines 138–150): walk
roles in order keeping the first role with extras left that maximises
(remainder, then remaining extras); accumulator starts at
`(null, -1, -1)`. -/
def bestRoleAux (st : ApSt) (remf : ℕ → ℕ) :
    List ℕ → Option ℕ × ℤ × ℤ → Option ℕ × ℤ × ℤ
  | [], acc => acc
  | r :: rest, acc =>
    bestRoleAux st remf rest
      (if 0 < st.extras r ∧
          (acc.2.1 < (remf r : ℤ) ∨ ((remf r : ℤ) = acc.2.1 ∧ acc.2.2 < st.extras r))
       then (some r, (remf r : ℤ), st.extras r) else acc)

/-- The role chosen by the residual pass for a given group, if any. -/
def bestRole (k : ℕ) (remf : ℕ → ℕ) (st : ApSt) : Option ℕ :=
  (bestRoleAux st remf (List.range k) (none, -1, -1)).1

/-- The inner `while (deficits[i] > 0)` loop of the residual pass (source
lines 137–156).  Each iteration that does not `break` decrements
`deficits[i]` by exactly one, so the loop makes at most
`deficits[i].toNat` iterations; the budget argument carries exactly that
number. -/
def drainAux (sizes counts : List ℕ) (i : ℕ) : ℕ → ApSt → ApSt
  | 0, st => st
  | fuel + 1, st =>
    if 0 < st.deficits i then
      match bestRole counts.length (fun r => remNum sizes counts r i) st with
      | none => st
      | some r => drainAux sizes counts i fuel (bump r i st)
    else st

/-- The inner while-loop, entered with its exact iteration budget. -/
def drainGroup (sizes counts : List ℕ) (i : ℕ) (st : ApSt) : ApSt :=
  drainAux sizes counts i (st.deficits i).toNat st

/-- The `for (i …; i < g && remainingDeficit > 0; …)` sweep of the
residual pass (source line 136).  The running `remainingDeficit` counter
is decremented in lockstep with the actual deficits, so it always equals
`sumOver g deficits`, which the guard recomputes here. -/
def forPass (sizes counts : List ℕ) (st : ApSt) : ApSt :=
  (List.range sizes.length).foldl
    (fun st i =>
      if 0 < sumOver sizes.length st.deficits then drainGroup sizes counts i st else st)
    st

/-- The outer `while (remainingDeficit > 0)` loop (source lines 135–162)
with its safety-valve `break` when no extras remain.  The budget models
the unbounded `while`; the Boolean records whether the loop reached one
of its own exit conditions (rather than the budget running out). -/
def residualLoop (sizes counts : List ℕ) : ℕ → ApSt → ApSt × Bool
  | 0, st => (st, !decide (0 < sumOver sizes.length st.deficits))
  | fuel + 1, st =>
    if 0 < sumOver sizes.length st.deficits then
      let st2 := forPass sizes counts st
      if sumOver counts.length st2.extras = 0 then (st2, true)
      else residualLoop sizes counts fuel st2
    else (st, true)

/-- The whole apportioner state pipeline: floors, shuffled-and-sorted
largest-remainder pass, residual loop.  Each loop iteration that
continues strictly decreases the total deficit, so
`remainingDeficit + 1` iterations always suffice (this bound is proved
never to be reached below). -/
def apportion (sizes counts : List ℕ) (shC : List ApCell → List ApCell) : ApSt × Bool :=
  residualLoop sizes counts
    ((sumOver sizes.length
        (pairsPass (sortByRemDesc (shC (cellList sizes counts)))
          (apInit sizes counts)).deficits).toNat + 1)
    (pairsPass (sortByRemDesc (shC (cellList sizes counts))) (apInit sizes counts))

/-- `computeRoleTargets(sizes, countsByRole)` from `script.js` lines
82–165, returning the quota table row-per-role (roles indexed by their
position in `counts`). -/
def computeRoleTargets (sizes counts : List ℕ) (shC : List ApCell → List ApCell) :
    List (List ℤ) :=
  (List.range counts.length).map (fun r =>
    (List.range sizes.length).map (fun i => (apportion sizes counts shC).1.targets r i))

/-- Whether the residual while-loop exited through one of its own
conditions (it always does; see the termination theorem). -/
def apportionCompleted (sizes counts : List ℕ) (shC : List ApCell → List ApCell) : Bool :=
  (apportion sizes counts shC).2

/-- `Object.keys` insertion order: the distinct values of the list in
order of first appearance.  The budget equals the list length, which the
recursion (always consuming at least one element per step) never
exhausts. -/
def firstKeysAux : ℕ → List String → List String
  | 0, _ => []
  | _, [] => []
  | fuel + 1, r :: rest => r :: firstKeysAux fuel (rest.filter (fun x => x ≠ r))

/-- The distinct roles of a roster in order of first appearance, i.e.
`Object.keys(byRole)` for the `byRole` built at source lines 173–177. -/
def firstKeys (l : List String) : List String := firstKeysAux l.length l

/-- The roles of a roster in `Object.keys` order. -/
def rolesOf (people : List Person) : List String := firstKeys (people.map Person.role)

/-- Consume people from one role's shuffled pool, group by group
(source lines 188–203): for each group take its `need` many people,
failing if the pool runs out first; returns the per-group slices and the
unconsumed tail `pool.slice(idx)`. -/
def consumeNeeds : List Person → List ℕ → Option (List (List Person) × List Person)
  | pool, [] => some ([], pool)
  | pool, m :: rest =>
    if pool.length < m then none
    else
      match consumeNeeds (pool.drop m) rest with
      | none => none
      | some (gs, remPool) => some (pool.take m :: gs, remPool)

/-- The assignment loop over all roles (source lines 188–203): each row
is `(role, shuffled pool, per-group needs)`; produces per-role per-group
additions and per-role leftovers, or the source's
`Internal error: insufficient people with role "r"`. -/
def assignAll :
    List (String × List Person × List ℕ) →
      Except AllocError (List (List (List Person)) × List (List Person))
  | [] => .ok ([], [])
  | (r, pool, needs) :: rest =>
    match consumeNeeds pool needs with
    | none => .error (.insufficientRoleSupply r)
    | some (gs, remPool) =>
      match assignAll rest with
      | .error e => .error e
      | .ok (adds, lefts) => .ok (gs :: adds, remPool :: lefts)

/-- The `while (groups[gi].length < sizes[gi] && leftovers.length > 0)`
filler (source lines 212–214); `leftovers.pop()` takes from the end.
Each iteration removes one leftover, so `lo.length` bounds the
iterations exactly. -/
def fillAux : ℕ → List Person → ℕ → List Person → List Person × List Person
  | 0, grp, _, lo => (grp, lo)
  | fuel + 1, grp, cap, lo =>
    if grp.length < cap then
      match lo.getLast? with
      | none => (grp, lo)
      | some p => fillAux fuel (grp ++ [p]) cap lo.dropLast
    else (grp, lo)

/-- Fill one group from the leftovers, with the loop's exact budget. -/
def fillGroup (grp : List Person) (cap : ℕ) (lo : List Person) : List Person × List Person :=
  fillAux lo.length grp cap lo

/-- The leftover-distribution sweep over the groups (source lines
211–215). -/
def distAux : List (List Person) → List ℕ → List Person → List (List Person) × List Person
  | [], _, lo => ([], lo)
  | grp :: rest, [], lo => (grp :: rest, lo)
  | grp :: rest, cap :: caps, lo =>
    let pr := fillGroup grp cap lo
    let pr2 := distAux rest caps pr.2
    (pr.1 :: pr2.1, pr2.2)

/-- One role's shuffled pool: `byRole[r]` after `shuffleInPlace` (source
lines 173–178). -/
def poolsOf (people : List Person) (shR : String → List Person → List Person)
    (r : String) : List Person :=
  shR r (people.filter (fun q => q.role = r))

/-- The per-role counts `{r: byRole[r].length}` (source line 181), in
role order. -/
def countsOf (people : List Person) (shR : String → List Person → List Person) : List ℕ :=
  (rolesOf people).map (fun r => (poolsOf people shR r).length)

/-- The assignment work list: for each role (in `Object.keys` order) its
name, its shuffled pool and its per-group needs
`roleTargets[r][0..g-1]` (source lines 188–192). -/
def rowsOf (people : List Person) (sizes : List ℕ)
    (shR : String → List Person → List Person) (shC : List ApCell → List ApCell) :
    List (String × List Person × List ℕ) :=
  (List.range (countsOf people shR).length).map (fun j =>
    ((rolesOf people).getD j "", poolsOf people shR ((rolesOf people).getD j ""),
      (List.range sizes.length).map (fun gi =>
        (((computeRoleTargets sizes (countsOf people shR) shC).getD j []).getD gi 0).toNat)))

/-- Reassemble the per-role per-group additions into the `groups` array:
group `gi` receives each role's slice in role order, matching the
source's pushes at line 197. -/
def groupsFromAdds (g : ℕ) (adds : List (List (List Person))) : List (List Person) :=
  (List.range g).map (fun gi => (adds.map (fun a => a.getD gi [])).flatten)

/-- The flattened annotated `(name, role, 1-based group)` rows (source
lines 229–234). -/
def annotatedOf (g : ℕ) (groups1 : List (List Person)) : List (String × String × ℕ) :=
  ((List.range g).map (fun gi =>
    (groups1.getD gi []).map (fun p => (p.name, p.role, gi + 1)))).flatten

/-- The two sanity checks and the result assembly (source lines
217–236): every group's length must equal its capacity and the total
assigned count must equal `n`. -/
def finishGroups (n : ℕ) (sizes : List ℕ) (groups1 : List (List Person)) :
    Except AllocError (List (List Person) × List (String × String × ℕ)) :=
  if (List.range sizes.length).all
      (fun gi => (groups1.getD gi []).length == sizes.getD gi 0) then
    if (groups1.map (fun x => x.length)).sum == n then
      .ok (groups1, annotatedOf sizes.length groups1)
    else .error .notAllAssigned
  else .error .groupSizeMismatch

/-- The body of `allocateGroups` after the group sizes are known (source
lines 172–236): partition by role, shuffle each pool, apportion, assign,
distribute leftovers, run the two sanity checks, and build the annotated
rows. -/
def allocateCore (people : List Person) (sizes : List ℕ)
    (shR : String → List Person → List Person) (shC : List ApCell → List ApCell)
    (shL : List Person → List Person) :
    Except AllocError (List (List Person) × List (String × String × ℕ)) :=
  match assignAll (rowsOf people sizes shR shC) with
  | .error e => .error e
  | .ok (adds, lefts) =>
    finishGroups people.length sizes
      (distAux (groupsFromAdds sizes.length adds) sizes (shL lefts.flatten)).1

/-- `allocateGroups(people, groupSize)` from `script.js` lines 168–237. -/
def allocateGroups (people : List Person) (d : Option ℚ)
    (shR : String → List Person → List Person) (shC : List ApCell → List ApCell)
    (shL : List Person → List Person) :
    Except AllocError (List (List Person) × List (String × String × ℕ)) :=
  match computeGroupSizes people.length d with
  | .error e => .error e
  | .ok sizes => allocateCore people sizes shR shC shL

/-- Per-role column sum of the target table over the `g` groups. -/
def colSum (g : ℕ) (st : ApSt) (r : ℕ) : ℤ := sumOver g (st.targets r)

/-- Per-group row sum of the target table over the `k` roles. -/
def rowSum (k : ℕ) (st : ApSt) (i : ℕ) : ℤ := sumOver k (fun r => st.targets r i)

/-- The running invariant of the apportioner state: row and column sums
plus the matching counters always reconstitute the inputs, counters are
non-negative, and out-of-range counters are zero. -/
structure ApInv (sizes counts : List ℕ) (st : ApSt) : Prop where
  hA : ∀ r, colSum sizes.length st r + st.extras r = (counts.getD r 0 : ℤ)
  hB : ∀ i, rowSum counts.length st i + st.deficits i = (sizes.getD i 0 : ℤ)
  hC : ∀ r, 0 ≤ st.extras r
  hE : ∀ r i, 0 ≤ st.targets r i
  hF : ∀ r, counts.length ≤ r → st.extras r = 0
  hG : ∀ i, sizes.length ≤ i → st.deficits i = 0

/-- Total extras equal total deficits (holds when the input sums match). -/
def ApBal (sizes counts : List ℕ) (st : ApSt) : Prop :=
  sumOver counts.length st.extras = sumOver sizes.length st.deficits

deriving instance DecidableEq for Except

/-! ## Summation helpers -/

theorem listMapRange_sum {M : Type} [AddCommMonoid M] (m : ℕ) (f : ℕ → M) :
    ((List.range m).map f).sum = ∑ i ∈ Finset.range m, f i := by
  induction m with
  | zero => simp
  | succ m ih =>
    rw [List.range_succ, List.map_append, List.sum_append, Finset.sum_range_succ, ih]
    simp

theorem sumOver_eq (m : ℕ) (f : ℕ → ℤ) : sumOver m f = ∑ i ∈ Finset.range m, f i :=
  listMapRange_sum m f

theorem listMap_sum_getD {α : Type} {M : Type} [AddCommMonoid M] (l : List α) (d : α)
    (f : α → M) : (l.map f).sum = ∑ j ∈ Finset.range l.length, f (l.getD j d) := by
  induction l with
  | nil => simp
  | cons a t ih =>
    rw [List.map_cons, List.sum_cons, List.length_cons, Finset.sum_range_succ']
    simp only [List.getD_cons_succ, List.getD_cons_zero, ← ih]
    exact add_comm _ _

theorem getD_range_sum_nat (l : List ℕ) : ∑ i ∈ Finset.range l.length, l.getD i 0 = l.sum := by
  simpa using (listMap_sum_getD l 0 id).symm

theorem getD_range_sum_int (l : List ℕ) :
    ∑ i ∈ Finset.range l.length, (l.getD i 0 : ℤ) = (l.sum : ℤ) := by
  rw [← Nat.cast_sum, getD_range_sum_nat]

theorem mapRange_getD_eq_map {α β : Type} (l : List α) (d : α) (F : α → β) :
    (List.range l.length).map (fun j => F (l.getD j d)) = l.map F := by
  induction l with
  | nil => simp
  | cons a t ih =>
    rw [List.length_cons, List.range_succ_eq_map, List.map_cons, List.map_map]
    simp only [List.getD_cons_zero, Function.comp_def, Nat.succ_eq_add_one,
      List.getD_cons_succ, List.map_cons]
    rw [ih]

theorem sum_ite_lt (g r : ℕ) : (∑ i ∈ Finset.range g, if i < r then 1 else 0) = min r g := by
  induction g with
  | zero => simp
  | succ g ih =>
    rw [Finset.sum_range_succ, ih]
    by_cases h : g < r <;> simp [h] <;> omega

theorem nat_div_add_div_le (a b n : ℕ) : a / n + b / n ≤ (a + b) / n := by
  rcases Nat.eq_zero_or_pos n with h | h
  · subst h; simp
  · rw [Nat.le_div_iff_mul_le h, Nat.add_mul]
    exact Nat.add_le_add (Nat.div_mul_le_self a n) (Nat.div_mul_le_self b n)

theorem sum_div_le (g n : ℕ) (f : ℕ → ℕ) :
    ∑ i ∈ Finset.range g, f i / n ≤ (∑ i ∈ Finset.range g, f i) / n := by
  induction g with
  | zero => simp
  | succ g ih =>
    rw [Finset.sum_range_succ, Finset.sum_range_succ]
    exact le_trans (Nat.add_le_add_right ih _) (nat_div_add_div_le _ _ _)

/-! ## Group sizer: basic facts -/

theorem numGroups_pos (n : ℕ) (q : ℚ) : 0 < numGroups n q :=
  lt_of_lt_of_le one_pos (le_max_left _ _)

theorem numGroups_le (n : ℕ) (q : ℚ) (hn : 1 ≤ n) (hq : 2 ≤ q) : numGroups n q ≤ n := by
  have hq0 : (0 : ℚ) < q := lt_of_lt_of_le (by norm_num) hq
  have h1 : (n : ℚ) / q ≤ (n : ℚ) / 2 :=
    div_le_div_of_nonneg_left (by positivity) (by norm_num) hq
  have h2 : jsRound ((n : ℚ) / q) ≤ (n : ℤ) := by
    unfold jsRound
    rw [Int.floor_le_iff]
    have h3 : (n : ℚ) / 2 ≤ (n : ℚ) := by
      apply div_le_self (by positivity) (by norm_num)
    push_cast
    linarith
  unfold numGroups
  have h4 : (jsRound ((n : ℚ) / q)).toNat ≤ n := Int.toNat_le.mpr h2
  omega

theorem sizesFor_length (n g : ℕ) : (sizesFor n g).length = g := by
  simp [sizesFor]

theorem sizesFor_sum (n g : ℕ) (hg : 0 < g) : (sizesFor n g).sum = n := by
  unfold sizesFor
  rw [listMapRange_sum, Finset.sum_add_distrib, Finset.sum_const, sum_ite_lt]
  simp only [Finset.card_range, smul_eq_mul]
  have h1 := Nat.div_add_mod n g
  have h2 : n % g < g := Nat.mod_lt _ hg
  have h3 : n / g * g = g * (n / g) := Nat.mul_comm _ _
  omega

theorem sizesFor_bounds (n g : ℕ) (hg : 0 < g) :
    ∀ s ∈ sizesFor n g, n / g ≤ s ∧ s ≤ n / g + 1 := by
  intro s hs
  unfold sizesFor at hs
  obtain ⟨i, _, rfl⟩ := List.mem_map.mp hs
  split <;> omega

theorem sizesFor_pos (n g : ℕ) (hg : 0 < g) (hgn : g ≤ n) : ∀ s ∈ sizesFor n g, 1 ≤ s := by
  intro s hs
  have h1 : 1 ≤ n / g := (Nat.one_le_div_iff hg).mpr hgn
  have := (sizesFor_bounds n g hg s hs).1
  omega

/-! ## Group sizer: claims -/

/-- Claim C3: for every `n ≥ 2` and finite `desired_size ≥ 2`,
`computeGroupSizes` returns `g = max(1, round(n / desired_size))` positive
sizes, the first `n - ⌊n/g⌋·g` of them `⌊n/g⌋ + 1` and the rest `⌊n/g⌋`;
they sum to `n`, each is `≥ 1`, and any two differ by at most 1. -/
theorem groupSizes_correct (n : ℕ) (q : ℚ) (hn : 2 ≤ n) (hq : 2 ≤ q) :
    computeGroupSizes n (some q) = .ok (sizesFor n (numGroups n q)) ∧
    (sizesFor n (numGroups n q)).length = numGroups n q ∧
    (∀ i, i < numGroups n q →
      (sizesFor n (numGroups n q)).getD i 0 =
        n / numGroups n q +
          if i < n - n / numGroups n q * numGroups n q then 1 else 0) ∧
    (sizesFor n (numGroups n q)).sum = n ∧
    (∀ s ∈ sizesFor n (numGroups n q), 1 ≤ s) ∧
    (∀ a ∈ sizesFor n (numGroups n q), ∀ b ∈ sizesFor n (numGroups n q), a ≤ b + 1) := by
  have hg : 0 < numGroups n q := numGroups_pos n q
  have hgn : numGroups n q ≤ n := numGroups_le n q (by omega) hq
  refine ⟨?_, sizesFor_length _ _, ?_, sizesFor_sum _ _ hg, sizesFor_pos _ _ hg hgn, ?_⟩
  · show (if q < 2 then _ else _) = _
    rw [if_neg (not_lt.mpr hq)]
  · intro i hi
    unfold sizesFor
    rw [List.getD_eq_getElem _ _ (by simpa using hi), List.getElem_map, List.getElem_range]
  · intro a ha b hb
    have h1 := sizesFor_bounds n _ hg a ha
    have h2 := sizesFor_bounds n _ hg b hb
    omega

/-- Witness for `groupSizes_correct` at `n = 7`, `desired_size = 3`
(the spec's boundary example, giving groups `[4, 3]`). -/
theorem groupSizes_correct_witness :
    (2 ≤ 7 ∧ 2 ≤ (3 : ℚ)) ∧
    (computeGroupSizes 7 (some 3) = .ok (sizesFor 7 (numGroups 7 3)) ∧
    (sizesFor 7 (numGroups 7 3)).length = numGroups 7 3 ∧
    (∀ i, i < numGroups 7 3 →
      (sizesFor 7 (numGroups 7 3)).getD i 0 =
        7 / numGroups 7 3 +
          if i < 7 - 7 / numGroups 7 3 * numGroups 7 3 then 1 else 0) ∧
    (sizesFor 7 (numGroups 7 3)).sum = 7 ∧
    (∀ s ∈ sizesFor 7 (numGroups 7 3), 1 ≤ s) ∧
    (∀ a ∈ sizesFor 7 (numGroups 7 3), ∀ b ∈ sizesFor 7 (numGroups 7 3), a ≤ b + 1)) :=
  ⟨⟨by norm_num, by norm_num⟩, groupSizes_correct 7 3 (by norm_num) (by norm_num)⟩

/-- Claim C7: `computeGroupSizes` fails with `InvalidConfiguration` exactly
when the desired size is non-finite (`none`) or `< 2`, and returns
normally exactly when the desired size is a finite value `≥ 2` (in
particular, `desired_size = 1` always fails). -/
theorem groupSizes_invalid_iff (n : ℕ) (d : Option ℚ) :
    (computeGroupSizes n d = .error .invalidConfiguration ↔
      d = none ∨ ∃ q, d = some q ∧ q < 2) ∧
    ((∃ L, computeGroupSizes n d = .ok L) ↔ ∃ q, d = some q ∧ 2 ≤ q) ∧
    computeGroupSizes n (some 1) = .error .invalidConfiguration := by
  have hone : computeGroupSizes n (some 1) = .error .invalidConfiguration := by
    show (if (1 : ℚ) < 2 then Except.error AllocError.invalidConfiguration else
      Except.ok (sizesFor n (numGroups n 1))) = Except.error AllocError.invalidConfiguration
    rw [if_pos (by norm_num)]
  refine ⟨?_, ?_, hone⟩
  · rcases d with _ | q
    · exact ⟨fun _ => Or.inl rfl, fun _ => rfl⟩
    · show (if q < 2 then Except.error AllocError.invalidConfiguration else _) = _ ↔ _
      by_cases hq : q < 2
      · rw [if_pos hq]
        exact ⟨fun _ => Or.inr ⟨q, rfl, hq⟩, fun _ => rfl⟩
      · rw [if_neg hq]
        constructor
        · intro h; cases h
        · rintro (h | ⟨q', hq', hlt⟩)
          · cases h
          · cases hq'; exact absurd hlt hq
  · rcases d with _ | q
    · constructor
      · rintro ⟨L, hL⟩; cases hL
      · rintro ⟨q', hq', _⟩; cases hq'
    · show (∃ L, (if q < 2 then Except.error AllocError.invalidConfiguration else
          Except.ok (sizesFor n (numGroups n q))) = Except.ok L) ↔ _
      by_cases hq : q < 2
      · rw [if_pos hq]
        constructor
        · rintro ⟨L, hL⟩; cases hL
        · rintro ⟨q', hq', hle⟩; cases hq'; exact absurd hq (not_lt.mpr hle)
      · rw [if_neg hq]
        exact ⟨fun _ => ⟨q, rfl, not_lt.mp hq⟩, fun _ => ⟨_, rfl⟩⟩

/-- Claim C10: the implementation rounds half up (JavaScript `Math.round`):
for `n = 5`, `desired_size = 2` the quotient `2.5` rounds to 3 groups and
the sizes are `[2, 2, 1]`. -/
theorem roundHalfUp_boundary :
    jsRound ((5 : ℚ) / 2) = 3 ∧ numGroups 5 2 = 3 ∧
    computeGroupSizes 5 (some 2) = .ok [2, 2, 1] := by
  have h1 : jsRound ((5 : ℚ) / 2) = 3 := by unfold jsRound; norm_num
  have h2 : numGroups 5 2 = 3 := by unfold numGroups jsRound; norm_num; decide
  refine ⟨h1, h2, ?_⟩
  show (if (2 : ℚ) < 2 then Except.error AllocError.invalidConfiguration else
    Except.ok (sizesFor 5 (numGroups 5 2))) = Except.ok [2, 2, 1]
  rw [if_neg (by norm_num), h2]
  rfl

/-! ## Apportioner: sum manipulation under a bump -/

theorem sumOver_sub_one (m : ℕ) (f : ℕ → ℤ) (i : ℕ) (hi : i < m) :
    sumOver m (fun j => if j = i then f j - 1 else f j) = sumOver m f - 1 := by
  rw [sumOver_eq, sumOver_eq]
  have h : ∀ j, (if j = i then f j - 1 else f j) = f j + (if j = i then -1 else 0) := by
    intro j; split <;> ring
  simp only [h]
  rw [Finset.sum_add_distrib, Finset.sum_ite_eq' (Finset.range m) i (fun _ => (-1 : ℤ))]
  rw [if_pos (Finset.mem_range.mpr hi)]
  ring

theorem sumOver_add_one (m : ℕ) (f : ℕ → ℤ) (i : ℕ) (hi : i < m) :
    sumOver m (fun j => if j = i then f j + 1 else f j) = sumOver m f + 1 := by
  rw [sumOver_eq, sumOver_eq]
  have h : ∀ j, (if j = i then f j + 1 else f j) = f j + (if j = i then 1 else 0) := by
    intro j; split <;> ring
  simp only [h]
  rw [Finset.sum_add_distrib, Finset.sum_ite_eq' (Finset.range m) i (fun _ => (1 : ℤ))]
  rw [if_pos (Finset.mem_range.mpr hi)]

theorem sumOver_congr (m : ℕ) {f g : ℕ → ℤ} (h : ∀ j, j < m → f j = g j) :
    sumOver m f = sumOver m g := by
  rw [sumOver_eq, sumOver_eq]
  exact Finset.sum_congr rfl (fun j hj => h j (Finset.mem_range.mp hj))

theorem bump_colSum_self {st : ApSt} {r i g : ℕ} (hi : i < g) :
    colSum g (bump r i st) r = colSum g st r + 1 := by
  unfold colSum
  have h : (bump r i st).targets r = fun i' => if i' = i then st.targets r i' + 1
      else st.targets r i' := by
    funext i'; simp [bump]
  rw [h, sumOver_add_one _ _ _ hi]

theorem bump_colSum_other {st : ApSt} {r i g r' : ℕ} (hr : r' ≠ r) :
    colSum g (bump r i st) r' = colSum g st r' := by
  unfold colSum
  have h : (bump r i st).targets r' = st.targets r' := by
    funext i'; simp [bump, hr]
  rw [h]

theorem bump_rowSum_self {st : ApSt} {r i k : ℕ} (hr : r < k) :
    rowSum k (bump r i st) i = rowSum k st i + 1 := by
  unfold rowSum
  have h : (fun r' => (bump r i st).targets r' i) =
      fun r' => if r' = r then st.targets r' i + 1 else st.targets r' i := by
    funext r'; simp [bump]
  rw [h, sumOver_add_one _ _ _ hr]

theorem bump_rowSum_other {st : ApSt} {r i k i' : ℕ} (hi : i' ≠ i) :
    rowSum k (bump r i st) i' = rowSum k st i' := by
  unfold rowSum
  have h : (fun r' => (bump r i st).targets r' i') = fun r' => st.targets r' i' := by
    funext r'; simp [bump, hi]
  rw [h]

theorem bump_sumExtras {st : ApSt} {r i k : ℕ} (hr : r < k) :
    sumOver k (bump r i st).extras = sumOver k st.extras - 1 := by
  have h : (bump r i st).extras = fun r' => if r' = r then st.extras r' - 1
      else st.extras r' := rfl
  rw [h, sumOver_sub_one _ _ _ hr]

theorem bump_sumDeficits {st : ApSt} {r i g : ℕ} (hi : i < g) :
    sumOver g (bump r i st).deficits = sumOver g st.deficits - 1 := by
  have h : (bump r i st).deficits = fun i' => if i' = i then st.deficits i' - 1
      else st.deficits i' := rfl
  rw [h, sumOver_sub_one _ _ _ hi]

/-! ## Apportioner: the invariant at initialisation -/

theorem sum_floorQuota_le_count (sizes counts : List ℕ) (r : ℕ) :
    ∑ i ∈ Finset.range sizes.length, floorQuota sizes counts r i ≤ counts.getD r 0 := by
  unfold floorQuota
  refine le_trans (sum_div_le _ _ _) ?_
  rw [← Finset.sum_mul, getD_range_sum_nat]
  rcases Nat.eq_zero_or_pos sizes.sum with h | h
  · simp [h]
  · rw [Nat.mul_div_cancel_left _ h]

theorem sum_floorQuota_le_size (sizes counts : List ℕ) (i : ℕ)
    (hsum : sizes.sum = counts.sum) :
    ∑ r ∈ Finset.range counts.length, floorQuota sizes counts r i ≤ sizes.getD i 0 := by
  unfold floorQuota
  refine le_trans (sum_div_le _ _ _) ?_
  rw [← Finset.mul_sum, getD_range_sum_nat, ← hsum]
  rcases Nat.eq_zero_or_pos sizes.sum with h | h
  · simp [h]
  · rw [Nat.mul_div_cancel _ h]

theorem apInv_init (sizes counts : List ℕ) : ApInv sizes counts (apInit sizes counts) := by
  constructor
  · intro r
    have h : (apInit sizes counts).targets r =
        fun i => ((floorQuota sizes counts r i : ℕ) : ℤ) := rfl
    show sumOver sizes.length ((apInit sizes counts).targets r) +
      ((counts.getD r 0 : ℤ) -
        sumOver sizes.length fun i => ((floorQuota sizes counts r i : ℕ) : ℤ)) = _
    rw [h]
    ring
  · intro i
    have h : (fun r => (apInit sizes counts).targets r i) =
        fun r => ((floorQuota sizes counts r i : ℕ) : ℤ) := rfl
    show sumOver counts.length (fun r => (apInit sizes counts).targets r i) +
      ((sizes.getD i 0 : ℤ) -
        sumOver counts.length fun r => ((floorQuota sizes counts r i : ℕ) : ℤ)) = _
    rw [h]
    ring
  · intro r
    show 0 ≤ (counts.getD r 0 : ℤ) - sumOver _ _
    have h1 : sumOver sizes.length (fun i => (floorQuota sizes counts r i : ℤ)) =
        ((∑ i ∈ Finset.range sizes.length, floorQuota sizes counts r i : ℕ) : ℤ) := by
      rw [sumOver_eq, Nat.cast_sum]
    rw [h1]
    have := sum_floorQuota_le_count sizes counts r
    omega
  · intro r i
    exact Int.ofNat_nonneg _
  · intro r hr
    show (counts.getD r 0 : ℤ) - sumOver _ _ = 0
    have hc : counts.getD r 0 = 0 := List.getD_eq_default _ _ hr
    have h0 : ∀ i, i < sizes.length → ((floorQuota sizes counts r i : ℕ) : ℤ) = (0 : ℤ) := by
      intro i _
      unfold floorQuota
      rw [hc]
      simp
    rw [sumOver_congr sizes.length h0]
    have : sumOver sizes.length (fun _ => (0 : ℤ)) = 0 := by
      unfold sumOver
      simp
    rw [hc, this]
    simp
  · intro i hi
    show (sizes.getD i 0 : ℤ) - sumOver _ _ = 0
    have hc : sizes.getD i 0 = 0 := List.getD_eq_default _ _ hi
    have h0 : ∀ r, r < counts.length → ((floorQuota sizes counts r i : ℕ) : ℤ) = (0 : ℤ) := by
      intro r _
      unfold floorQuota
      rw [hc]
      simp
    rw [sumOver_congr counts.length h0]
    have : sumOver counts.length (fun _ => (0 : ℤ)) = 0 := by
      unfold sumOver
      simp
    rw [hc, this]
    simp

theorem apDef_init_nonneg (sizes counts : List ℕ) (hsum : sizes.sum = counts.sum) :
    ∀ i, 0 ≤ (apInit sizes counts).deficits i := by
  intro i
  show 0 ≤ (sizes.getD i 0 : ℤ) - sumOver _ _
  have h1 : sumOver counts.length (fun r => (floorQuota sizes counts r i : ℤ)) =
      ((∑ r ∈ Finset.range counts.length, floorQuota sizes counts r i : ℕ) : ℤ) := by
    rw [sumOver_eq, Nat.cast_sum]
  rw [h1]
  have := sum_floorQuota_le_size sizes counts i hsum
  omega

theorem apBal_init (sizes counts : List ℕ) (hsum : sizes.sum = counts.sum) :
    ApBal sizes counts (apInit sizes counts) := by
  unfold ApBal
  show sumOver _ (fun r => (counts.getD r 0 : ℤ) - sumOver _ _) =
    sumOver _ (fun i => (sizes.getD i 0 : ℤ) - sumOver _ _)
  simp only [sumOver_eq]
  rw [Finset.sum_sub_distrib, Finset.sum_sub_distrib, getD_range_sum_int, getD_range_sum_int,
    Finset.sum_comm, hsum]

/-! ## Apportioner: preservation under a guarded bump -/

theorem apInv_bump {sizes counts : List ℕ} {st : ApSt} {r i : ℕ}
    (inv : ApInv sizes counts st) (hr : 0 < st.extras r) (hi : 0 < st.deficits i) :
    ApInv sizes counts (bump r i st) := by
  have hrk : r < counts.length := by
    by_contra h
    push_neg at h
    rw [inv.hF r h] at hr
    omega
  have hig : i < sizes.length := by
    by_contra h
    push_neg at h
    rw [inv.hG i h] at hi
    omega
  constructor
  · intro r'
    by_cases h : r' = r
    · rw [h, bump_colSum_self hig]
      have hb : (bump r i st).extras r = st.extras r - 1 := by simp [bump]
      rw [hb]
      have := inv.hA r
      omega
    · rw [bump_colSum_other h]
      have hb : (bump r i st).extras r' = st.extras r' := by simp [bump, h]
      rw [hb]
      exact inv.hA r'
  · intro i'
    by_cases h : i' = i
    · rw [h, bump_rowSum_self hrk]
      have hb : (bump r i st).deficits i = st.deficits i - 1 := by simp [bump]
      rw [hb]
      have := inv.hB i
      omega
    · rw [bump_rowSum_other h]
      have hb : (bump r i st).deficits i' = st.deficits i' := by simp [bump, h]
      rw [hb]
      exact inv.hB i'
  · intro r'
    have := inv.hC r'
    by_cases h : r' = r
    · rw [h]
      simp only [bump]
      simp
      omega
    · simp only [bump]
      rw [if_neg h]
      exact this
  · intro r' i'
    have := inv.hE r' i'
    by_cases h : r' = r ∧ i' = i
    · obtain ⟨h1, h2⟩ := h
      rw [h1, h2] at this ⊢
      simp [bump]
      omega
    · simp only [bump]
      rw [if_neg h]
      exact this
  · intro r' h
    have hne : r' ≠ r := by omega
    simp only [bump]
    rw [if_neg hne]
    exact inv.hF r' h
  · intro i' h
    have hne : i' ≠ i := by omega
    simp only [bump]
    rw [if_neg hne]
    exact inv.hG i' h

theorem apDef_bump {st : ApSt} {r i : ℕ} (hd : ∀ i', 0 ≤ st.deficits i')
    (hi : 0 < st.deficits i) : ∀ i', 0 ≤ (bump r i st).deficits i' := by
  intro i'
  have := hd i'
  by_cases h : i' = i <;> simp [bump, h] <;> omega

theorem apBal_bump {sizes counts : List ℕ} {st : ApSt} {r i : ℕ}
    (inv : ApInv sizes counts st) (hb : ApBal sizes counts st)
    (hr : 0 < st.extras r) (hi : 0 < st.deficits i) : ApBal sizes counts (bump r i st) := by
  have hrk : r < counts.length := by
    by_contra h
    push_neg at h
    rw [inv.hF r h] at hr
    omega
  have hig : i < sizes.length := by
    by_contra h
    push_neg at h
    rw [inv.hG i h] at hi
    omega
  unfold ApBal at hb ⊢
  rw [bump_sumExtras hrk, bump_sumDeficits hig, hb]

/-! ## Apportioner: best-role lemmas -/

theorem bestRoleAux_prop {st : ApSt} {remf : ℕ → ℕ} (Q : ℕ → Prop) :
    ∀ (l : List ℕ) (acc : Option ℕ × ℤ × ℤ),
      (∀ r, acc.1 = some r → Q r) → (∀ r ∈ l, 0 < st.extras r → Q r) →
      ∀ r, (bestRoleAux st remf l acc).1 = some r → Q r := by
  intro l
  induction l with
  | nil => intro acc hacc _ r h; exact hacc r h
  | cons a rest ih =>
    intro acc hacc hl r h
    rw [bestRoleAux] at h
    refine ih _ ?_ (fun r' hr' => hl r' (List.mem_cons_of_mem _ hr')) r h
    intro r' hr'
    split at hr'
    · rename_i hcond
      cases hr'
      exact hl a (List.mem_cons_self _ _) hcond.1
    · exact hacc r' hr'

theorem bestRole_some {st : ApSt} {remf : ℕ → ℕ} {k r : ℕ}
    (h : bestRole k remf st = some r) : 0 < st.extras r ∧ r < k := by
  refine bestRoleAux_prop (fun r => 0 < st.extras r ∧ r < k) (List.range k)
    (none, -1, -1) ?_ ?_ r h
  · intro r' h'; cases h'
  · intro r' hr' hpos
    exact ⟨hpos, List.mem_range.mp hr'⟩

theorem bestRoleAux_none {st : ApSt} {remf : ℕ → ℕ} :
    ∀ (l : List ℕ) (acc : Option ℕ × ℤ × ℤ), (acc.1 = none → acc.2.1 = -1) →
      (bestRoleAux st remf l acc).1 = none →
      acc.1 = none ∧ ∀ r ∈ l, st.extras r ≤ 0 := by
  intro l
  induction l with
  | nil => intro acc _ h; exact ⟨h, by simp⟩
  | cons a rest ih =>
    intro acc hneg h
    rw [bestRoleAux] at h
    by_cases hcond : 0 < st.extras a ∧
        (acc.2.1 < (remf a : ℤ) ∨ ((remf a : ℤ) = acc.2.1 ∧ acc.2.2 < st.extras a))
    · rw [if_pos hcond] at h
      have := (ih _ (by intro hx; cases hx) h).1
      cases this
    · rw [if_neg hcond] at h
      obtain ⟨h1, h2⟩ := ih _ hneg h
      refine ⟨h1, ?_⟩
      intro r hr
      rcases List.mem_cons.mp hr with rfl | hmem
      · by_contra hpos
        push_neg at hpos
        refine hcond ⟨hpos, Or.inl ?_⟩
        rw [hneg h1]
        have : (0 : ℤ) ≤ (remf r : ℤ) := Int.ofNat_nonneg _
        omega
      · exact h2 r hmem

theorem bestRole_none {st : ApSt} {remf : ℕ → ℕ} {k : ℕ}
    (h : bestRole k remf st = none) : ∀ r, r < k → st.extras r ≤ 0 := by
  intro r hr
  exact (bestRoleAux_none (List.range k) (none, -1, -1) (fun _ => rfl) h).2 r
    (List.mem_range.mpr hr)

/-! ## Apportioner: generic preservation through the loops -/

theorem pairsPass_preserve {P : ApSt → Prop}
    (hstep : ∀ st r i, P st → 0 < st.extras r → 0 < st.deficits i → P (bump r i st)) :
    ∀ (order : List ApCell) (st : ApSt), P st → P (pairsPass order st) := by
  intro order
  induction order with
  | nil => intro st h; exact h
  | cons c rest ih =>
    intro st h
    show P (List.foldl pairsStep st (c :: rest))
    rw [List.foldl_cons]
    refine ih _ ?_
    unfold pairsStep
    split
    · exact h
    · split
      · exact h
      · exact hstep _ _ _ h (by omega) (by omega)

theorem drainAux_preserve {P : ApSt → Prop} {sizes counts : List ℕ} {i : ℕ}
    (hstep : ∀ st r i, P st → 0 < st.extras r → 0 < st.deficits i → P (bump r i st)) :
    ∀ (fuel : ℕ) (st : ApSt), P st → P (drainAux sizes counts i fuel st) := by
  intro fuel
  induction fuel with
  | zero => intro st h; exact h
  | succ fuel ih =>
    intro st h
    rw [drainAux]
    split
    · rename_i hdef
      cases hbr : bestRole counts.length (fun r => remNum sizes counts r i) st with
      | none => exact h
      | some r => exact ih _ (hstep _ _ _ h (bestRole_some hbr).1 hdef)
    · exact h

theorem drainGroup_preserve {P : ApSt → Prop} {sizes counts : List ℕ} {i : ℕ}
    (hstep : ∀ st r i, P st → 0 < st.extras r → 0 < st.deficits i → P (bump r i st))
    (st : ApSt) (h : P st) : P (drainGroup sizes counts i st) :=
  drainAux_preserve hstep _ _ h

theorem forPass_preserve {P : ApSt → Prop} {sizes counts : List ℕ}
    (hstep : ∀ st r i, P st → 0 < st.extras r → 0 < st.deficits i → P (bump r i st))
    (st : ApSt) (h : P st) : P (forPass sizes counts st) := by
  unfold forPass
  generalize List.range sizes.length = l
  induction l generalizing st with
  | nil => exact h
  | cons a rest ih =>
    rw [List.foldl_cons]
    refine ih _ ?_
    split
    · exact drainGroup_preserve hstep _ h
    · exact h

theorem residualLoop_preserve {P : ApSt → Prop} (sizes counts : List ℕ)
    (hstep : ∀ st r i, P st → 0 < st.extras r → 0 < st.deficits i → P (bump r i st)) :
    ∀ (fuel : ℕ) (st : ApSt), P st → P (residualLoop sizes counts fuel st).1 := by
  intro fuel
  induction fuel with
  | zero => intro st h; exact h
  | succ fuel ih =>
    intro st h
    rw [residualLoop]
    by_cases hc : 0 < sumOver sizes.length st.deficits
    · rw [if_pos hc]
      show P (if sumOver counts.length (forPass sizes counts st).extras = 0
        then (forPass sizes counts st, true)
        else residualLoop sizes counts fuel (forPass sizes counts st)).1
      by_cases he : sumOver counts.length (forPass sizes counts st).extras = 0
      · rw [if_pos he]
        exact forPass_preserve hstep _ h
      · rw [if_neg he]
        exact ih _ (forPass_preserve hstep _ h)
    · rw [if_neg hc]
      exact h

/-! ## Apportioner: the residual loop always reaches an exit condition -/

theorem drainAux_other {sizes counts : List ℕ} {i j : ℕ} (hij : j ≠ i) :
    ∀ (fuel : ℕ) (st : ApSt), (drainAux sizes counts i fuel st).deficits j = st.deficits j := by
  intro fuel
  induction fuel with
  | zero => intro st; rfl
  | succ fuel ih =>
    intro st
    rw [drainAux]
    split
    · cases hbr : bestRole counts.length (fun r => remNum sizes counts r i) st with
      | none => rfl
      | some r =>
        rw [ih]
        simp [bump, hij]
    · rfl

theorem drainGroup_other {sizes counts : List ℕ} {i j : ℕ} (hij : j ≠ i) (st : ApSt) :
    (drainGroup sizes counts i st).deficits j = st.deficits j :=
  drainAux_other hij _ _

theorem drainAux_noop {sizes counts : List ℕ} {i : ℕ} {st : ApSt}
    (inv : ApInv sizes counts st) (hz : sumOver counts.length st.extras = 0) :
    ∀ fuel, drainAux sizes counts i fuel st = st := by
  have hnone : bestRole counts.length (fun r => remNum sizes counts r i) st = none := by
    cases hbr : bestRole counts.length (fun r => remNum sizes counts r i) st with
    | none => rfl
    | some r =>
      obtain ⟨hpos, hrk⟩ := bestRole_some hbr
      have hle : st.extras r ≤ sumOver counts.length st.extras := by
        rw [sumOver_eq]
        exact Finset.single_le_sum (fun j _ => inv.hC j) (Finset.mem_range.mpr hrk)
      omega
  intro fuel
  cases fuel with
  | zero => rfl
  | succ fuel =>
    rw [drainAux]
    split
    · rw [hnone]
    · rfl

theorem drainGroup_stops {sizes counts : List ℕ} {i : ℕ} {st : ApSt}
    (inv : ApInv sizes counts st) :
    (drainGroup sizes counts i st).deficits i ≤ 0 ∨
      sumOver counts.length (drainGroup sizes counts i st).extras = 0 := by
  unfold drainGroup
  generalize hfuel : (st.deficits i).toNat = fuel
  induction fuel generalizing st with
  | zero =>
    left
    show st.deficits i ≤ 0
    omega
  | succ fuel ih =>
    rw [drainAux]
    split
    · rename_i hdef
      cases hbr : bestRole counts.length (fun r => remNum sizes counts r i) st with
      | none =>
        right
        show sumOver counts.length st.extras = 0
        have hall := bestRole_none hbr
        rw [sumOver_eq]
        refine Finset.sum_eq_zero ?_
        intro r hrk
        have h1 := inv.hC r
        have h2 := hall r (Finset.mem_range.mp hrk)
        omega
      | some r =>
        have hpos := (bestRole_some hbr).1
        show (drainAux sizes counts i fuel (bump r i st)).deficits i ≤ 0 ∨
          sumOver counts.length (drainAux sizes counts i fuel (bump r i st)).extras = 0
        refine ih (apInv_bump inv hpos hdef) ?_
        have hb : (bump r i st).deficits i = st.deficits i - 1 := by simp [bump]
        rw [hb]
        omega
    · left
      omega

theorem drainGroup_noop {sizes counts : List ℕ} {i : ℕ} {st : ApSt}
    (inv : ApInv sizes counts st) (hz : sumOver counts.length st.extras = 0) :
    drainGroup sizes counts i st = st :=
  drainAux_noop inv hz _

theorem foldDrain_stops {sizes counts : List ℕ} :
    ∀ (l : List ℕ) (st : ApSt), ApInv sizes counts st →
      ((∀ j, j ∉ l → st.deficits j ≤ 0) ∨ sumOver counts.length st.extras = 0 ∨
        sumOver sizes.length st.deficits ≤ 0) →
      (∀ j, (l.foldl (fun st i =>
          if 0 < sumOver sizes.length st.deficits then drainGroup sizes counts i st else st)
          st).deficits j ≤ 0) ∨
        sumOver counts.length (l.foldl (fun st i =>
          if 0 < sumOver sizes.length st.deficits then drainGroup sizes counts i st else st)
          st).extras = 0 ∨
        sumOver sizes.length (l.foldl (fun st i =>
          if 0 < sumOver sizes.length st.deficits then drainGroup sizes counts i st else st)
          st).deficits ≤ 0 := by
  intro l
  induction l with
  | nil =>
    intro st inv pre
    rcases pre with h | h | h
    · exact Or.inl (fun j => h j (by simp))
    · exact Or.inr (Or.inl h)
    · exact Or.inr (Or.inr h)
  | cons a rest ih =>
    intro st inv pre
    rw [List.foldl_cons]
    by_cases hc : 0 < sumOver sizes.length st.deficits
    · rw [if_pos hc]
      rcases pre with h | h | h
      · have inv2 : ApInv sizes counts (drainGroup sizes counts a st) :=
          drainGroup_preserve (fun st r i => apInv_bump) st inv
        refine ih _ inv2 ?_
        rcases @drainGroup_stops sizes counts a st inv with hstop | hstop
        · left
          intro j hj
          by_cases hja : j = a
          · rw [hja]; exact hstop
          · rw [drainGroup_other hja]
            exact h j (by simp [hja, hj])
        · exact Or.inr (Or.inl hstop)
      · rw [drainGroup_noop inv h]
        refine ih _ inv ?_
        exact Or.inr (Or.inl h)
      · omega
    · rw [if_neg hc]
      refine ih _ inv ?_
      exact Or.inr (Or.inr (by omega))

theorem forPass_stops {sizes counts : List ℕ} {st : ApSt} (inv : ApInv sizes counts st) :
    sumOver counts.length (forPass sizes counts st).extras = 0 ∨
      sumOver sizes.length (forPass sizes counts st).deficits ≤ 0 := by
  have h := foldDrain_stops (List.range sizes.length) st inv
    (Or.inl (fun j hj => le_of_eq (inv.hG j (by simpa using hj))))
  unfold forPass
  rcases h with h | h | h
  · right
    rw [sumOver_eq]
    refine Finset.sum_nonpos ?_
    intro j _
    exact h j
  · exact Or.inl h
  · exact Or.inr h

theorem residualLoop_steady {sizes counts : List ℕ} {st : ApSt}
    (h : ¬ 0 < sumOver sizes.length st.deficits) :
    ∀ fuel, residualLoop sizes counts fuel st = (st, true) := by
  intro fuel
  cases fuel with
  | zero =>
    rw [residualLoop]
    rw [decide_eq_false h]
    rfl
  | succ fuel =>
    rw [residualLoop, if_neg h]

theorem residualLoop_done {sizes counts : List ℕ} {st : ApSt} (inv : ApInv sizes counts st) :
    ∀ fuel, 1 ≤ fuel →
      (residualLoop sizes counts fuel st).2 = true ∧
      (sumOver counts.length (residualLoop sizes counts fuel st).1.extras = 0 ∨
        sumOver sizes.length (residualLoop sizes counts fuel st).1.deficits ≤ 0) := by
  intro fuel
  induction fuel generalizing st with
  | zero => omega
  | succ fuel ih =>
    intro _
    rw [residualLoop]
    by_cases hc : 0 < sumOver sizes.length st.deficits
    · rw [if_pos hc]
      have inv2 : ApInv sizes counts (forPass sizes counts st) :=
        forPass_preserve (fun st r i => apInv_bump) st inv
      show ((if sumOver counts.length (forPass sizes counts st).extras = 0
        then (forPass sizes counts st, true)
        else residualLoop sizes counts fuel (forPass sizes counts st)).2 = true ∧ _)
      by_cases he : sumOver counts.length (forPass sizes counts st).extras = 0
      · rw [if_pos he]
        exact ⟨rfl, Or.inl he⟩
      · rw [if_neg he]
        have hd : sumOver sizes.length (forPass sizes counts st).deficits ≤ 0 := by
          rcases forPass_stops inv with h | h
          · exact absurd h he
          · exact h
        rw [residualLoop_steady
          (show ¬ 0 < sumOver sizes.length (forPass sizes counts st).deficits by omega)]
        exact ⟨rfl, Or.inr hd⟩
    · rw [if_neg hc]
      exact ⟨rfl, Or.inr (show sumOver sizes.length st.deficits ≤ 0 by omega)⟩

/-! ## Apportioner: exactness of the final table -/

theorem sumOver_zero_forall {m : ℕ} {f : ℕ → ℤ} (hnn : ∀ j, 0 ≤ f j)
    (hout : ∀ j, m ≤ j → f j = 0) (hz : sumOver m f = 0) : ∀ j, f j = 0 := by
  intro j
  by_cases hj : j < m
  · have h1 := hnn j
    have h2 : f j ≤ sumOver m f := by
      rw [sumOver_eq]
      exact Finset.single_le_sum (fun x _ => hnn x) (Finset.mem_range.mpr hj)
    omega
  · exact hout j (by omega)

theorem apportion_exact (sizes counts : List ℕ) (shC : List ApCell → List ApCell)
    (hsum : sizes.sum = counts.sum) :
    ApInv sizes counts (apportion sizes counts shC).1 ∧
    (∀ r, (apportion sizes counts shC).1.extras r = 0) ∧
    (∀ i, (apportion sizes counts shC).1.deficits i = 0) := by
  have hstep : ∀ (st : ApSt) (r i : ℕ),
      (ApInv sizes counts st ∧ (∀ i', 0 ≤ st.deficits i') ∧ ApBal sizes counts st) →
      0 < st.extras r → 0 < st.deficits i →
      (ApInv sizes counts (bump r i st) ∧ (∀ i', 0 ≤ (bump r i st).deficits i') ∧
        ApBal sizes counts (bump r i st)) := by
    rintro st r i ⟨i1, i2, i3⟩ hr hi
    exact ⟨apInv_bump i1 hr hi, apDef_bump i2 hi, apBal_bump i1 i3 hr hi⟩
  have hP0 : ApInv sizes counts (apInit sizes counts) ∧
      (∀ i', 0 ≤ (apInit sizes counts).deficits i') ∧
      ApBal sizes counts (apInit sizes counts) :=
    ⟨apInv_init sizes counts, apDef_init_nonneg sizes counts hsum, apBal_init sizes counts hsum⟩
  have hP1 := pairsPass_preserve hstep
    (sortByRemDesc (shC (cellList sizes counts))) (apInit sizes counts) hP0
  have hPf := residualLoop_preserve sizes counts hstep
    ((sumOver sizes.length
        (pairsPass (sortByRemDesc (shC (cellList sizes counts)))
          (apInit sizes counts)).deficits).toNat + 1)
    (pairsPass (sortByRemDesc (shC (cellList sizes counts))) (apInit sizes counts)) hP1
  have hdone := residualLoop_done hP1.1
    ((sumOver sizes.length
        (pairsPass (sortByRemDesc (shC (cellList sizes counts)))
          (apInit sizes counts)).deficits).toNat + 1) (by omega)
  rw [show residualLoop sizes counts
      ((sumOver sizes.length
          (pairsPass (sortByRemDesc (shC (cellList sizes counts)))
            (apInit sizes counts)).deficits).toNat + 1)
      (pairsPass (sortByRemDesc (shC (cellList sizes counts))) (apInit sizes counts)) =
    apportion sizes counts shC from rfl] at hdone hPf
  obtain ⟨invF, hDF, hBF⟩ := hPf
  have hboth : sumOver counts.length (apportion sizes counts shC).1.extras = 0 ∧
      sumOver sizes.length (apportion sizes counts shC).1.deficits = 0 := by
    have hDsum : 0 ≤ sumOver sizes.length (apportion sizes counts shC).1.deficits := by
      rw [sumOver_eq]
      exact Finset.sum_nonneg (fun j _ => hDF j)
    rcases hdone.2 with h | h
    · have := hBF
      unfold ApBal at this
      constructor
      · exact h
      · omega
    · have := hBF
      unfold ApBal at this
      constructor
      · omega
      · omega
  refine ⟨invF, ?_, ?_⟩
  · exact sumOver_zero_forall invF.hC invF.hF hboth.1
  · exact sumOver_zero_forall hDF invF.hG hboth.2

/-! ## Quota table extraction -/

theorem computeRoleTargets_length (sizes counts : List ℕ) (shC : List ApCell → List ApCell) :
    (computeRoleTargets sizes counts shC).length = counts.length := by
  simp [computeRoleTargets]

theorem computeRoleTargets_getD {sizes counts : List ℕ} {shC : List ApCell → List ApCell}
    {r : ℕ} (hr : r < counts.length) :
    (computeRoleTargets sizes counts shC).getD r [] =
      (List.range sizes.length).map (fun i => (apportion sizes counts shC).1.targets r i) := by
  unfold computeRoleTargets
  rw [List.getD_eq_getElem _ _ (by simpa using hr), List.getElem_map, List.getElem_range]

theorem computeRoleTargets_row_sum {sizes counts : List ℕ} {shC : List ApCell → List ApCell}
    {r : ℕ} (hr : r < counts.length) :
    ((computeRoleTargets sizes counts shC).getD r []).sum =
      colSum sizes.length (apportion sizes counts shC).1 r := by
  rw [computeRoleTargets_getD hr]
  rfl

theorem computeRoleTargets_col {sizes counts : List ℕ} {shC : List ApCell → List ApCell}
    {i : ℕ} (hi : i < sizes.length) :
    (computeRoleTargets sizes counts shC).map (fun row => row.getD i 0) =
      (List.range counts.length).map (fun r => (apportion sizes counts shC).1.targets r i) := by
  unfold computeRoleTargets
  rw [List.map_map]
  refine List.map_congr_left ?_
  intro r _
  show ((List.range sizes.length).map
    (fun i' => (apportion sizes counts shC).1.targets r i')).getD i 0 = _
  rw [List.getD_eq_getElem _ _ (by simpa using hi), List.getElem_map, List.getElem_range]

theorem computeRoleTargets_col_sum {sizes counts : List ℕ} {shC : List ApCell → List ApCell}
    {i : ℕ} (hi : i < sizes.length) :
    ((computeRoleTargets sizes counts shC).map (fun row => row.getD i 0)).sum =
      rowSum counts.length (apportion sizes counts shC).1 i := by
  rw [computeRoleTargets_col hi]
  rfl

theorem computeRoleTargets_nonneg {sizes counts : List ℕ} {shC : List ApCell → List ApCell}
    (inv : ApInv sizes counts (apportion sizes counts shC).1) :
    ∀ row ∈ computeRoleTargets sizes counts shC, ∀ x ∈ row, 0 ≤ x := by
  intro row hrow x hx
  unfold computeRoleTargets at hrow
  obtain ⟨r, _, rfl⟩ := List.mem_map.mp hrow
  obtain ⟨i, _, rfl⟩ := List.mem_map.mp hx
  exact inv.hE _ _

/-- Claim C1: for positive capacities and role counts whose sums both
equal `n > 0`, the quota table returned by `computeRoleTargets` has, for
every group, role-entries summing to that group's capacity; for every
role, group-entries summing to that role's total; and every entry
non-negative. -/
theorem quota_table_sums (sizes counts : List ℕ) (shC : List ApCell → List ApCell)
    (hpos : ∀ s ∈ sizes, 0 < s) (hn : 0 < sizes.sum) (hsum : sizes.sum = counts.sum) :
    (∀ i, i < sizes.length →
      ((computeRoleTargets sizes counts shC).map (fun row => row.getD i 0)).sum =
        (sizes.getD i 0 : ℤ)) ∧
    (∀ r, r < counts.length →
      ((computeRoleTargets sizes counts shC).getD r []).sum = (counts.getD r 0 : ℤ)) ∧
    (∀ row ∈ computeRoleTargets sizes counts shC, ∀ x ∈ row, 0 ≤ x) := by
  obtain ⟨inv, hex, hdef⟩ := apportion_exact sizes counts shC hsum
  refine ⟨?_, ?_, computeRoleTargets_nonneg inv⟩
  · intro i hi
    rw [computeRoleTargets_col_sum hi]
    have h1 := inv.hB i
    have h2 := hdef i
    omega
  · intro r hr
    rw [computeRoleTargets_row_sum hr]
    have h1 := inv.hA r
    have h2 := hex r
    omega

/-- Witness for `quota_table_sums` at capacities `[3, 1]` and role counts
`[2, 2]`. -/
theorem quota_table_sums_witness :
    ((∀ s ∈ [3, 1], 0 < s) ∧ 0 < [3, 1].sum ∧ [3, 1].sum = [2, 2].sum) ∧
    ((∀ i, i < [3, 1].length →
      ((computeRoleTargets [3, 1] [2, 2] (fun l => l)).map (fun row => row.getD i 0)).sum =
        (([3, 1].getD i 0 : ℕ) : ℤ)) ∧
    (∀ r, r < [2, 2].length →
      ((computeRoleTargets [3, 1] [2, 2] (fun l => l)).getD r []).sum =
        (([2, 2].getD r 0 : ℕ) : ℤ)) ∧
    (∀ row ∈ computeRoleTargets [3, 1] [2, 2] (fun l => l), ∀ x ∈ row, 0 ≤ x)) :=
  ⟨⟨by decide, by decide, by decide⟩,
    quota_table_sums [3, 1] [2, 2] (fun l => l) (by decide) (by decide) (by decide)⟩

/-- Claim C9: the apportioner terminates for every input, even when the
two sums differ: the residual while-loop always reaches one of its own
exit conditions (within the stated iteration budget), so a call always
returns a table. -/
theorem apportioner_terminates (sizes counts : List ℕ) (shC : List ApCell → List ApCell)
    (hpos : ∀ s ∈ sizes, 0 < s) : apportionCompleted sizes counts shC = true := by
  have inv1 : ApInv sizes counts
      (pairsPass (sortByRemDesc (shC (cellList sizes counts))) (apInit sizes counts)) :=
    pairsPass_preserve (fun st r i inv => apInv_bump inv) _ _ (apInv_init sizes counts)
  exact (residualLoop_done inv1 _ (by omega)).1

/-- Witness for `apportioner_terminates` on mismatched sums
(capacity 2 vs. a single role counting only 1 person). -/
theorem apportioner_terminates_witness :
    (∀ s ∈ [2], 0 < s) ∧ apportionCompleted [2] [1] (fun l => l) = true :=
  ⟨by decide, apportioner_terminates [2] [1] (fun l => l) (by decide)⟩

/-! ## The no-extras fast path, the 9-person scenario and the silent
residual return -/

theorem pairsPass_noop {st : ApSt} (h : ∀ r, st.extras r ≤ 0) :
    ∀ order : List ApCell, pairsPass order st = st := by
  intro order
  induction order with
  | nil => rfl
  | cons c rest ih =>
    show List.foldl pairsStep st (c :: rest) = st
    rw [List.foldl_cons]
    have hstep : pairsStep st c = st := by
      unfold pairsStep
      rw [if_pos (h c.role)]
    rw [hstep]
    exact ih

theorem apInit_extras_nonpos_tail (sizes counts : List ℕ) :
    ∀ r, counts.length ≤ r → (apInit sizes counts).extras r ≤ 0 :=
  fun r hr => le_of_eq ((apInv_init sizes counts).hF r hr)

theorem apportion_of_no_extras {sizes counts : List ℕ} {shC : List ApCell → List ApCell}
    (h : ∀ r, (apInit sizes counts).extras r ≤ 0)
    (hd : ¬ 0 < sumOver sizes.length (apInit sizes counts).deficits) :
    apportion sizes counts shC = (apInit sizes counts, true) := by
  unfold apportion
  rw [pairsPass_noop h]
  exact residualLoop_steady hd _

/-- Claim C6: for 9 people with role counts `{A: 6, B: 3}` and desired
size 3, regardless of the random choices the sizer gives three groups of
three and the quota table gives every group exactly two of the majority
role and one of the minority role (in either role order). -/
theorem scenario_nine_people (shC : List ApCell → List ApCell) :
    computeGroupSizes 9 (some 3) = .ok [3, 3, 3] ∧
    computeRoleTargets [3, 3, 3] [6, 3] shC = [[2, 2, 2], [1, 1, 1]] ∧
    computeRoleTargets [3, 3, 3] [3, 6] shC = [[1, 1, 1], [2, 2, 2]] := by
  refine ⟨?_, ?_, ?_⟩
  · have h2 : numGroups 9 3 = 3 := by unfold numGroups jsRound; norm_num; decide
    show (if (3 : ℚ) < 2 then Except.error AllocError.invalidConfiguration else
      Except.ok (sizesFor 9 (numGroups 9 3))) = Except.ok [3, 3, 3]
    rw [if_neg (by norm_num), h2]
    rfl
  · have h : ∀ r, (apInit [3, 3, 3] [6, 3]).extras r ≤ 0 := by
      intro r
      match r with
      | 0 => decide
      | 1 => decide
      | r + 2 => exact apInit_extras_nonpos_tail _ _ _ (by simp)
    unfold computeRoleTargets
    rw [apportion_of_no_extras h (by decide)]
    decide
  · have h : ∀ r, (apInit [3, 3, 3] [3, 6]).extras r ≤ 0 := by
      intro r
      match r with
      | 0 => decide
      | 1 => decide
      | r + 2 => exact apInit_extras_nonpos_tail _ _ _ (by simp)
    unfold computeRoleTargets
    rw [apportion_of_no_extras h (by decide)]
    decide

/-- Counterexample to claim C4 as stated: with capacities `[2]` and a
single role counting 1 person, the residual pass is entered with a
deficit it cannot fill (no role has extras), yet `computeRoleTargets`
does not fail: the safety-valve `break` fires and the function returns
the table `[[1]]`, whose single group receives 1 person instead of its
capacity 2. -/
theorem residual_silent_return_cex :
    computeRoleTargets [2] [1] (fun l => l) = [[1]] ∧
    apportionCompleted [2] [1] (fun l => l) = true ∧
    ((computeRoleTargets [2] [1] (fun l => l)).map (fun row => row.getD 0 0)).sum ≠
      (([2].getD 0 0 : ℕ) : ℤ) := by
  refine ⟨by decide, by decide, by decide⟩

/-- Claim C4 (amended): when a deficit remains while no role has extras,
the residual pass exits through its safety-valve `break` and
`computeRoleTargets` returns the table with the deficit left unfilled —
it never raises; at capacities `[2]` with role counts `[1]` every random
choice yields the table `[[1]]` together with a normal (non-failing)
exit of the loop. -/
theorem residual_silent_return (shC : List ApCell → List ApCell) :
    computeRoleTargets [2] [1] shC = [[1]] ∧
    apportionCompleted [2] [1] shC = true := by
  have h : ∀ r, (apInit [2] [1]).extras r ≤ 0 := by
    intro r
    match r with
    | 0 => decide
    | r + 1 => exact apInit_extras_nonpos_tail _ _ _ (by simp)
  have hpp : pairsPass (sortByRemDesc (shC (cellList [2] [1]))) (apInit [2] [1]) =
      apInit [2] [1] := pairsPass_noop h _
  constructor
  · unfold computeRoleTargets apportion
    rw [hpp]
    decide
  · unfold apportionCompleted apportion
    rw [hpp]
    decide

/-! ## Assigner: pool exhaustion -/

theorem consumeNeeds_some_sum_le {pool : List Person} {needs : List ℕ}
    {gs : List (List Person)} {remPool : List Person}
    (h : consumeNeeds pool needs = some (gs, remPool)) : needs.sum ≤ pool.length := by
  induction needs generalizing pool gs remPool with
  | nil => simp
  | cons m rest ih =>
    rw [consumeNeeds] at h
    split at h
    · cases h
    · rename_i hlen
      cases hc : consumeNeeds (pool.drop m) rest with
      | none => rw [hc] at h; cases h
      | some pr =>
        obtain ⟨g2, r2⟩ := pr
        have hrest := ih hc
        have hdrop : (pool.drop m).length = pool.length - m := by simp
        rw [List.sum_cons]
        omega

/-- Claim C8: if, for some role in the work list, the quota column sum
exceeds that role's pool, the assignment loop fails with
`InsufficientRoleSupply` (for the first such role it reaches) instead of
producing groups. -/
theorem assignAll_insufficient (rows : List (String × List Person × List ℕ)) (j : ℕ)
    (hj : j < rows.length)
    (hbad : (rows.getD j ("", [], [])).2.1.length < (rows.getD j ("", [], [])).2.2.sum) :
    ∃ r, assignAll rows = .error (.insufficientRoleSupply r) := by
  induction rows generalizing j with
  | nil => simp at hj
  | cons row rest ih =>
    obtain ⟨rname, pool, needs⟩ := row
    cases hc : consumeNeeds pool needs with
    | none =>
      refine ⟨rname, ?_⟩
      rw [assignAll, hc]
    | some pr =>
      obtain ⟨gs, remPool⟩ := pr
      match j with
      | 0 =>
        have := consumeNeeds_some_sum_le hc
        simp only [List.getD_cons_zero] at hbad
        omega
      | j + 1 =>
        obtain ⟨r, hr⟩ := ih j (by simpa using hj) (by simpa using hbad)
        refine ⟨r, ?_⟩
        rw [assignAll, hc, hr]

/-- Witness for `assignAll_insufficient`: one role `A` with a single
person but a quota column summing to 2. -/
theorem assignAll_insufficient_witness :
    (0 < [("A", [Person.mk "a" "A"], [2])].length ∧
      ([("A", [Person.mk "a" "A"], [2])].getD 0 ("", [], [])).2.1.length <
        ([("A", [Person.mk "a" "A"], [2])].getD 0 ("", [], [])).2.2.sum) ∧
    ∃ r, assignAll [("A", [Person.mk "a" "A"], [2])] =
      .error (.insufficientRoleSupply r) :=
  ⟨⟨by decide, by decide⟩,
    assignAll_insufficient [("A", [Person.mk "a" "A"], [2])] 0 (by decide) (by decide)⟩

/-! ## Assigner: structure and conservation of the consuming pass -/

theorem consumeNeeds_some_spec {pool : List Person} {needs : List ℕ}
    {gs : List (List Person)} {remPool : List Person}
    (h : consumeNeeds pool needs = some (gs, remPool)) :
    gs.length = needs.length ∧ gs.map List.length = needs ∧ gs.flatten ++ remPool = pool := by
  induction needs generalizing pool gs remPool with
  | nil =>
    rw [consumeNeeds] at h
    cases h
    exact ⟨rfl, rfl, rfl⟩
  | cons m rest ih =>
    rw [consumeNeeds] at h
    split at h
    · cases h
    · rename_i hlen
      cases hc : consumeNeeds (pool.drop m) rest with
      | none => rw [hc] at h; cases h
      | some pr =>
        obtain ⟨g2, r2⟩ := pr
        rw [hc] at h
        cases h
        obtain ⟨ih1, ih2, ih3⟩ := ih hc
        refine ⟨by simpa using ih1, ?_, ?_⟩
        · rw [List.map_cons, ih2, List.length_take]
          congr 1
          omega
        · rw [List.flatten_cons, List.append_assoc, ih3, List.take_append_drop]

theorem consumeNeeds_of_le {pool : List Person} {needs : List ℕ}
    (h : needs.sum ≤ pool.length) :
    ∃ gs remPool, consumeNeeds pool needs = some (gs, remPool) := by
  induction needs generalizing pool with
  | nil => exact ⟨[], pool, rfl⟩
  | cons m rest ih =>
    rw [List.sum_cons] at h
    have hdrop : (pool.drop m).length = pool.length - m := by simp
    obtain ⟨gs, remPool, hc⟩ := @ih (pool.drop m) (by omega)
    refine ⟨pool.take m :: gs, remPool, ?_⟩
    rw [consumeNeeds, if_neg (by omega), hc]

theorem assignAll_ok_of (rows : List (String × List Person × List ℕ))
    (h : ∀ row ∈ rows, row.2.2.sum = row.2.1.length) :
    ∃ adds lefts, assignAll rows = .ok (adds, lefts) ∧ lefts.flatten = [] ∧
      adds.length = rows.length ∧
      ∀ j, (adds.getD j []).map List.length = (rows.getD j ("", [], [])).2.2 := by
  induction rows with
  | nil =>
    refine ⟨[], [], rfl, rfl, rfl, ?_⟩
    intro j
    rfl
  | cons row rest ih =>
    obtain ⟨rname, pool, needs⟩ := row
    have hrow := h _ (List.mem_cons_self _ _)
    obtain ⟨gs, remPool, hc⟩ := consumeNeeds_of_le (le_of_eq hrow)
    obtain ⟨spec1, spec2, spec3⟩ := consumeNeeds_some_spec hc
    have hrem : remPool = [] := by
      dsimp only at hrow spec2 spec3
      have hflat : gs.flatten.length = needs.sum := by
        rw [List.length_flatten, spec2]
      have h2 := congrArg List.length spec3
      rw [List.length_append, hflat] at h2
      have h3 : remPool.length = 0 := by omega
      exact List.length_eq_zero.mp h3
    obtain ⟨adds, lefts, hA, hL, hlen, hgetD⟩ := ih (fun row hr => h row (List.mem_cons_of_mem _ hr))
    refine ⟨gs :: adds, remPool :: lefts, ?_, ?_, by simpa using hlen, ?_⟩
    · rw [assignAll, hc, hA]
    · rw [List.flatten_cons, hL, hrem]
      rfl
    · intro j
      match j with
      | 0 => simpa using spec2
      | j + 1 => simpa using hgetD j

theorem assignAll_conserve {rows : List (String × List Person × List ℕ)}
    {adds : List (List (List Person))} {lefts : List (List Person)}
    (h : assignAll rows = .ok (adds, lefts)) (p : Person) :
    ((adds.map List.flatten).flatten).count p + (lefts.flatten).count p =
      ((rows.map (fun row => row.2.1)).flatten).count p := by
  induction rows generalizing adds lefts with
  | nil =>
    rw [assignAll] at h
    cases h
    rfl
  | cons row rest ih =>
    obtain ⟨rname, pool, needs⟩ := row
    rw [assignAll] at h
    split at h
    · cases h
    · rename_i gs remPool hc
      cases hA : assignAll rest with
      | error e => rw [hA] at h; cases h
      | ok pr =>
        obtain ⟨adds2, lefts2⟩ := pr
        rw [hA] at h
        cases h
        have ihc := ih hA
        have hpool : gs.flatten ++ remPool = pool := (consumeNeeds_some_spec hc).2.2
        have hcnt : gs.flatten.count p + remPool.count p = pool.count p := by
          rw [← hpool, List.count_append]
        simp only [List.map_cons, List.flatten_cons, List.count_append]
        omega

theorem assignAll_row_lengths {rows : List (String × List Person × List ℕ)}
    {adds : List (List (List Person))} {lefts : List (List Person)} {g : ℕ}
    (h : assignAll rows = .ok (adds, lefts)) (hg : ∀ row ∈ rows, row.2.2.length = g) :
    ∀ a ∈ adds, a.length = g := by
  induction rows generalizing adds lefts with
  | nil =>
    rw [assignAll] at h
    cases h
    intro a ha
    cases ha
  | cons row rest ih =>
    obtain ⟨rname, pool, needs⟩ := row
    rw [assignAll] at h
    split at h
    · cases h
    · rename_i gs remPool hc
      cases hA : assignAll rest with
      | error e => rw [hA] at h; cases h
      | ok pr =>
        obtain ⟨adds2, lefts2⟩ := pr
        rw [hA] at h
        cases h
        intro a ha
        rcases List.mem_cons.mp ha with rfl | hmem
        · rw [(consumeNeeds_some_spec hc).1]
          exact hg _ (List.mem_cons_self _ _)
        · exact ih hA (fun row hr => hg row (List.mem_cons_of_mem _ hr)) a hmem

/-! ## Assigner: the transpose step conserves the multiset -/

theorem count_flatten_nat (p : Person) (l : List (List Person)) :
    l.flatten.count p = ∑ j ∈ Finset.range l.length, ((l.getD j []).count p) := by
  rw [List.count_flatten, listMap_sum_getD l []]

theorem getD_map_range {β : Type} (m : ℕ) (F : ℕ → β) (d : β) {j : ℕ} (hj : j < m) :
    ((List.range m).map F).getD j d = F j := by
  rw [List.getD_eq_getElem _ _ (by simpa using hj), List.getElem_map, List.getElem_range]

theorem getD_map_list {α β : Type} (l : List α) (F : α → β) (d : α) (e : β) {j : ℕ}
    (hj : j < l.length) : (l.map F).getD j e = F (l.getD j d) := by
  rw [List.getD_eq_getElem _ _ (by simpa using hj), List.getElem_map,
    List.getD_eq_getElem _ _ hj]

theorem groupsFromAdds_count (g : ℕ) (adds : List (List (List Person)))
    (hlen : ∀ a ∈ adds, a.length = g) (p : Person) :
    (groupsFromAdds g adds).flatten.count p = ((adds.map List.flatten).flatten).count p := by
  have hL : ∀ j, j < adds.length → (adds.getD j []).length = g := by
    intro j hj
    refine hlen _ ?_
    rw [List.getD_eq_getElem _ _ hj]
    exact List.getElem_mem _
  have hLHS : (groupsFromAdds g adds).flatten.count p =
      ∑ gi ∈ Finset.range g, ∑ j ∈ Finset.range adds.length,
        ((adds.getD j []).getD gi []).count p := by
    rw [count_flatten_nat]
    have hlen2 : (groupsFromAdds g adds).length = g := by
      unfold groupsFromAdds
      simp
    rw [hlen2]
    refine Finset.sum_congr rfl ?_
    intro gi hgi
    have hg1 : (groupsFromAdds g adds).getD gi [] =
        (adds.map (fun a => a.getD gi [])).flatten := by
      unfold groupsFromAdds
      exact getD_map_range g _ _ (Finset.mem_range.mp hgi)
    rw [hg1, count_flatten_nat]
    have hlen3 : (adds.map (fun a => a.getD gi [])).length = adds.length := by simp
    rw [hlen3]
    refine Finset.sum_congr rfl ?_
    intro j hj
    rw [getD_map_list adds _ ([] : List (List Person)) _ (Finset.mem_range.mp hj)]
  have hRHS : ((adds.map List.flatten).flatten).count p =
      ∑ j ∈ Finset.range adds.length, ∑ gi ∈ Finset.range g,
        ((adds.getD j []).getD gi []).count p := by
    rw [count_flatten_nat]
    have hlen2 : (adds.map List.flatten).length = adds.length := by simp
    rw [hlen2]
    refine Finset.sum_congr rfl ?_
    intro j hj
    rw [getD_map_list adds _ ([] : List (List Person)) _ (Finset.mem_range.mp hj)]
    rw [count_flatten_nat, hL j (Finset.mem_range.mp hj)]
  rw [hLHS, hRHS, Finset.sum_comm]

/-! ## Assigner: leftover distribution conserves the multiset -/

theorem fillAux_count (p : Person) :
    ∀ (fuel : ℕ) (grp : List Person) (cap : ℕ) (lo : List Person),
      (fillAux fuel grp cap lo).1.count p + (fillAux fuel grp cap lo).2.count p =
        grp.count p + lo.count p := by
  intro fuel
  induction fuel with
  | zero => intro grp cap lo; rfl
  | succ fuel ih =>
    intro grp cap lo
    rw [fillAux]
    split
    · cases hlast : lo.getLast? with
      | none => rfl
      | some q =>
        have hne : lo ≠ [] := by
          intro hnil
          rw [hnil] at hlast
          cases hlast
        have hq : lo.getLast hne = q := by
          have := List.getLast?_eq_getLast lo hne
          rw [hlast] at this
          exact (Option.some.injEq _ _).mp this.symm
        have hsplit : lo.dropLast ++ [q] = lo := by
          rw [← hq]
          exact List.dropLast_append_getLast hne
        have hcnt : lo.dropLast.count p + [q].count p = lo.count p := by
          rw [← List.count_append, hsplit]
        have := ih (grp ++ [q]) cap lo.dropLast
        rw [List.count_append] at this
        rw [this]
        simp only [List.count_append] at hcnt ⊢
        omega
    · rfl

theorem fillGroup_count (p : Person) (grp : List Person) (cap : ℕ) (lo : List Person) :
    (fillGroup grp cap lo).1.count p + (fillGroup grp cap lo).2.count p =
      grp.count p + lo.count p :=
  fillAux_count p _ _ _ _

theorem distAux_count (p : Person) :
    ∀ (grps : List (List Person)) (caps : List ℕ) (lo : List Person),
      (distAux grps caps lo).1.flatten.count p + (distAux grps caps lo).2.count p =
        grps.flatten.count p + lo.count p := by
  intro grps
  induction grps with
  | nil => intro caps lo; rfl
  | cons grp rest ih =>
    intro caps lo
    match caps with
    | [] => rfl
    | cap :: caps =>
      show ((fillGroup grp cap lo).1 :: (distAux rest caps (fillGroup grp cap lo).2).1).flatten.count p +
          (distAux rest caps (fillGroup grp cap lo).2).2.count p = _
      rw [List.flatten_cons, List.count_append, List.flatten_cons, List.count_append]
      have h1 := fillGroup_count p grp cap lo
      have h2 := ih caps (fillGroup grp cap lo).2
      omega

theorem fillAux_nil_lo (fuel : ℕ) (grp : List Person) (cap : ℕ) :
    fillAux fuel grp cap [] = (grp, []) := by
  cases fuel with
  | zero => rfl
  | succ fuel =>
    rw [fillAux]
    split
    · rfl
    · rfl

theorem distAux_nil_lo : ∀ (grps : List (List Person)) (caps : List ℕ),
    distAux grps caps [] = (grps, []) := by
  intro grps
  induction grps with
  | nil => intro caps; rfl
  | cons grp rest ih =>
    intro caps
    match caps with
    | [] => rfl
    | cap :: caps =>
      show ((fillGroup grp cap []).1 :: (distAux rest caps (fillGroup grp cap []).2).1,
        (distAux rest caps (fillGroup grp cap []).2).2) = _
      have hfg : fillGroup grp cap [] = (grp, []) := fillAux_nil_lo 0 grp cap
      rw [hfg, ih caps]

/-! ## Assigner: partitioning the roster by role -/

theorem firstKeysAux_mem : ∀ (fuel : ℕ) (l : List String), l.length ≤ fuel →
    ∀ a, a ∈ firstKeysAux fuel l ↔ a ∈ l := by
  intro fuel
  induction fuel with
  | zero =>
    intro l hl a
    have : l = [] := List.length_eq_zero.mp (by omega)
    rw [this]
    rfl
  | succ fuel ih =>
    intro l hl a
    match l with
    | [] => rfl
    | r :: rest =>
      rw [firstKeysAux]
      have hlen : (rest.filter (fun x => x ≠ r)).length ≤ fuel := by
        have := List.length_filter_le (fun x => decide (x ≠ r)) rest
        simp only [List.length_cons] at hl
        omega
      rw [List.mem_cons, ih _ hlen a, List.mem_filter, List.mem_cons]
      by_cases ha : a = r
      · simp [ha]
      · simp [ha]

theorem firstKeysAux_nodup : ∀ (fuel : ℕ) (l : List String), l.length ≤ fuel →
    (firstKeysAux fuel l).Nodup := by
  intro fuel
  induction fuel with
  | zero =>
    intro l hl
    have h0 : l = [] := List.length_eq_zero.mp (by omega)
    rw [h0]
    exact List.nodup_nil
  | succ fuel ih =>
    intro l hl
    match l with
    | [] => exact List.nodup_nil
    | r :: rest =>
      rw [firstKeysAux]
      have hlen : (rest.filter (fun x => x ≠ r)).length ≤ fuel := by
        have := List.length_filter_le (fun x => decide (x ≠ r)) rest
        simp only [List.length_cons] at hl
        omega
      refine List.nodup_cons.mpr ⟨?_, ih _ hlen⟩
      intro hmem
      rw [firstKeysAux_mem _ _ hlen] at hmem
      have := List.mem_filter.mp hmem
      simp at this

theorem firstKeys_mem (l : List String) (a : String) : a ∈ firstKeys l ↔ a ∈ l :=
  firstKeysAux_mem l.length l le_rfl a

theorem firstKeys_nodup (l : List String) : (firstKeys l).Nodup :=
  firstKeysAux_nodup l.length l le_rfl

theorem count_filter_role (people : List Person) (p : Person) (r : String) :
    (people.filter (fun q => q.role = r)).count p =
      if p.role = r then people.count p else 0 := by
  by_cases hp : p.role = r
  · rw [if_pos hp]
    exact List.count_filter (by simpa using hp)
  · rw [if_neg hp]
    rw [List.count_eq_zero]
    intro hmem
    have := (List.mem_filter.mp hmem).2
    simp only [decide_eq_true_eq] at this
    exact hp this

theorem count_pools_nodup (people : List Person) (p : Person) :
    ∀ (roles : List String), roles.Nodup →
      (roles.map (fun r => (people.filter (fun q => q.role = r)).count p)).sum =
        if p.role ∈ roles then people.count p else 0 := by
  intro roles
  induction roles with
  | nil => intro _; rfl
  | cons r rest ih =>
    intro hnd
    rw [List.map_cons, List.sum_cons, ih (List.nodup_cons.mp hnd).2, count_filter_role]
    by_cases hp : p.role = r
    · have hnot : p.role ∉ rest := by
        rw [hp]
        exact (List.nodup_cons.mp hnd).1
      rw [if_pos hp, if_neg hnot,
        if_pos (show p.role ∈ r :: rest from by rw [hp]; exact List.mem_cons_self _ _)]
      omega
    · rw [if_neg hp]
      by_cases hm : p.role ∈ rest
      · rw [if_pos hm,
          if_pos (show p.role ∈ r :: rest from List.mem_cons_of_mem _ hm)]
        omega
      · rw [if_neg hm,
          if_neg (show p.role ∉ r :: rest from by rw [List.mem_cons]; tauto)]

theorem count_pools (people : List Person) (p : Person) :
    ((rolesOf people).map (fun r => (people.filter (fun q => q.role = r)).count p)).sum =
      people.count p := by
  rw [count_pools_nodup people p (rolesOf people) (firstKeys_nodup _)]
  by_cases hm : p.role ∈ rolesOf people
  · rw [if_pos hm]
  · rw [if_neg hm]
    have hnp : p ∉ people := by
      intro hp
      refine hm ?_
      rw [rolesOf, firstKeys_mem]
      exact List.mem_map.mpr ⟨p, hp, rfl⟩
    rw [List.count_eq_zero.mpr hnp]

theorem count_shuffled_pools (people : List Person)
    (shR : String → List Person → List Person) (hsh : ∀ r l, (shR r l).Perm l) (p : Person) :
    (((rolesOf people).map (fun r => poolsOf people shR r)).flatten).count p =
      people.count p := by
  rw [List.count_flatten, List.map_map]
  have hc : ∀ r, (poolsOf people shR r).count p =
      (people.filter (fun q => q.role = r)).count p := by
    intro r
    exact (hsh r _).count_eq p
  calc ((rolesOf people).map (Function.comp (List.count p) (fun r => poolsOf people shR r))).sum
      = ((rolesOf people).map (fun r => (people.filter (fun q => q.role = r)).count p)).sum := by
        refine congrArg List.sum ?_
        refine List.map_congr_left ?_
        intro r _
        exact hc r
    _ = people.count p := count_pools people p

/-! ## Claim C2: the allocator conserves the roster -/

theorem rowsOf_pools (people : List Person) (sizes : List ℕ)
    (shR : String → List Person → List Person) (shC : List ApCell → List ApCell) :
    (rowsOf people sizes shR shC).map (fun row => row.2.1) =
      (rolesOf people).map (fun r => poolsOf people shR r) := by
  unfold rowsOf
  rw [List.map_map]
  have hk : (countsOf people shR).length = (rolesOf people).length := by
    unfold countsOf
    rw [List.length_map]
  rw [hk]
  exact mapRange_getD_eq_map (rolesOf people) "" (fun r => poolsOf people shR r)

theorem rowsOf_needs_length (people : List Person) (sizes : List ℕ)
    (shR : String → List Person → List Person) (shC : List ApCell → List ApCell) :
    ∀ row ∈ rowsOf people sizes shR shC, row.2.2.length = sizes.length := by
  intro row hrow
  unfold rowsOf at hrow
  obtain ⟨j, _, rfl⟩ := List.mem_map.mp hrow
  simp

/-- Claim C2: for every roster (non-empty names and roles, at least two
people) and every finite desired size `≥ 2`, whenever `allocateGroups`
returns normally the multiset union of the output groups is exactly the
input roster: nobody is dropped or duplicated, and the group lengths sum
to `n`. -/
theorem allocate_preserves_roster (people : List Person) (q : ℚ)
    (shR : String → List Person → List Person) (shC : List ApCell → List ApCell)
    (shL : List Person → List Person)
    (hn : 2 ≤ people.length) (hnames : ∀ p ∈ people, p.name ≠ "" ∧ p.role ≠ "")
    (hq : 2 ≤ q) (hshR : ∀ r l, (shR r l).Perm l) (hshL : ∀ l, (shL l).Perm l)
    (gr : List (List Person)) (ann : List (String × String × ℕ))
    (hres : allocateGroups people (some q) shR shC shL = .ok (gr, ann)) :
    gr.flatten.Perm people ∧ (gr.map (fun x => x.length)).sum = people.length := by
  cases hsz : computeGroupSizes people.length (some q) with
  | error e =>
    have hcontra : (Except.error e :
        Except AllocError (List (List Person) × List (String × String × ℕ))) =
        .ok (gr, ann) := by
      rw [← hres]
      unfold allocateGroups
      rw [hsz]
    cases hcontra
  | ok sizes =>
    have hres2 : allocateCore people sizes shR shC shL = .ok (gr, ann) := by
      rw [← hres]
      unfold allocateGroups
      rw [hsz]
    cases hA : assignAll (rowsOf people sizes shR shC) with
    | error e =>
      have hcontra : (Except.error e :
          Except AllocError (List (List Person) × List (String × String × ℕ))) =
          .ok (gr, ann) := by
        rw [← hres2]
        unfold allocateCore
        rw [hA]
      cases hcontra
    | ok pr =>
      obtain ⟨adds, lefts⟩ := pr
      have hfin : finishGroups people.length sizes
          (distAux (groupsFromAdds sizes.length adds) sizes (shL lefts.flatten)).1 =
          .ok (gr, ann) := by
        rw [← hres2]
        unfold allocateCore
        rw [hA]
      unfold finishGroups at hfin
      split at hfin
      · split at hfin
        · rename_i hchk1 hchk2
          cases hfin
          set D2 := distAux (groupsFromAdds sizes.length adds) sizes (shL lefts.flatten)
            with hD2
          have hcount : (D2.1.map (fun x => x.length)).sum = people.length :=
            beq_iff_eq.mp hchk2
          refine ⟨?_, hcount⟩
          have key : ∀ p : Person,
              D2.1.flatten.count p + D2.2.count p = people.count p := by
            intro p
            have h1 := distAux_count p (groupsFromAdds sizes.length adds) sizes
              (shL lefts.flatten)
            rw [← hD2] at h1
            have h2 : (groupsFromAdds sizes.length adds).flatten.count p =
                ((adds.map List.flatten).flatten).count p :=
              groupsFromAdds_count sizes.length adds
                (assignAll_row_lengths hA (rowsOf_needs_length people sizes shR shC)) p
            have h3 : (shL lefts.flatten).count p = lefts.flatten.count p :=
              (hshL lefts.flatten).count_eq p
            have h4 := assignAll_conserve hA p
            have h5 : (((rowsOf people sizes shR shC).map (fun row => row.2.1)).flatten).count p
                = people.count p := by
              rw [rowsOf_pools]
              exact count_shuffled_pools people shR hshR p
            omega
          have hperm : (D2.1.flatten ++ D2.2).Perm people := by
            rw [List.perm_iff_count]
            intro p
            rw [List.count_append]
            exact key p
          have hlen2 : D2.1.flatten.length = people.length := by
            rw [List.length_flatten]
            exact hcount
          have hrest : D2.2 = [] := by
            have hpl := hperm.length_eq
            rw [List.length_append, hlen2] at hpl
            have h0 : D2.2.length = 0 := by omega
            exact List.length_eq_zero.mp h0
          rw [hrest, List.append_nil] at hperm
          exact hperm
        · cases hfin
      · cases hfin

/-- Witness for `allocate_preserves_roster` on a two-person roster. -/
theorem allocate_preserves_roster_witness :
    (2 ≤ ([Person.mk "a" "A", Person.mk "b" "B"] : List Person).length ∧
      (∀ p ∈ ([Person.mk "a" "A", Person.mk "b" "B"] : List Person),
        p.name ≠ "" ∧ p.role ≠ "") ∧
      2 ≤ (2 : ℚ) ∧
      allocateGroups [Person.mk "a" "A", Person.mk "b" "B"] (some 2)
        (fun _ l => l) (fun l => l) (fun l => l) =
        .ok ([[Person.mk "a" "A", Person.mk "b" "B"]],
          [("a", "A", 1), ("b", "B", 1)])) ∧
    ([[Person.mk "a" "A", Person.mk "b" "B"]] :
        List (List Person)).flatten.Perm [Person.mk "a" "A", Person.mk "b" "B"] ∧
    (([[Person.mk "a" "A", Person.mk "b" "B"]] :
        List (List Person)).map (fun x => x.length)).sum =
      ([Person.mk "a" "A", Person.mk "b" "B"] : List Person).length := by
  have hrun : allocateGroups [Person.mk "a" "A", Person.mk "b" "B"] (some 2)
      (fun _ l => l) (fun l => l) (fun l => l) =
      .ok ([[Person.mk "a" "A", Person.mk "b" "B"]], [("a", "A", 1), ("b", "B", 1)]) := by
    have hsz : computeGroupSizes 2 (some 2) = .ok [2] := by
      have h2 : numGroups 2 2 = 1 := by unfold numGroups jsRound; norm_num
      show (if (2 : ℚ) < 2 then Except.error AllocError.invalidConfiguration else
        Except.ok (sizesFor 2 (numGroups 2 2))) = Except.ok [2]
      rw [if_neg (by norm_num), h2]
      rfl
    unfold allocateGroups
    rw [show ([Person.mk "a" "A", Person.mk "b" "B"] : List Person).length = 2 from rfl, hsz]
    decide
  refine ⟨⟨by decide, by decide, by norm_num, hrun⟩, ?_, by decide⟩
  exact (allocate_preserves_roster [Person.mk "a" "A", Person.mk "b" "B"] 2
    (fun _ l => l) (fun l => l) (fun l => l) (by decide) (by decide) (by norm_num)
    (fun _ l => List.Perm.refl l) (fun l => List.Perm.refl l) _ _ hrun).1

/-! ## Claim C5: the sanity checks never fire -/

theorem counts_sum_eq (people : List Person) (shR : String → List Person → List Person)
    (hshR : ∀ r l, (shR r l).Perm l) : (countsOf people shR).sum = people.length := by
  have hperm : (((rolesOf people).map (fun r => poolsOf people shR r)).flatten).Perm people :=
    List.perm_iff_count.mpr (count_shuffled_pools people shR hshR)
  have hlen := hperm.length_eq
  rw [List.length_flatten, List.map_map] at hlen
  unfold countsOf
  exact hlen

/-- Claim C5: for a roster of at least two people and a finite desired
size `≥ 2`, `allocateGroups` always returns normally (the two
`AllocationInvariantViolation` branches are unreachable, as is
`InsufficientRoleSupply`), every group's final length equals its
computed capacity, and the total number of assigned people equals `n`. -/
theorem allocate_succeeds (people : List Person) (q : ℚ)
    (shR : String → List Person → List Person) (shC : List ApCell → List ApCell)
    (shL : List Person → List Person)
    (hn : 2 ≤ people.length) (hq : 2 ≤ q)
    (hshR : ∀ r l, (shR r l).Perm l) (hshL : ∀ l, (shL l).Perm l) :
    ∃ gr ann, allocateGroups people (some q) shR shC shL = .ok (gr, ann) ∧
      computeGroupSizes people.length (some q) =
        .ok (sizesFor people.length (numGroups people.length q)) ∧
      gr.map (fun x => x.length) = sizesFor people.length (numGroups people.length q) ∧
      gr.flatten.length = people.length ∧
      allocateGroups people (some q) shR shC shL ≠ .error .groupSizeMismatch ∧
      allocateGroups people (some q) shR shC shL ≠ .error .notAllAssigned := by
  have hsz : computeGroupSizes people.length (some q) =
      .ok (sizesFor people.length (numGroups people.length q)) := by
    show (if q < 2 then Except.error AllocError.invalidConfiguration else
      Except.ok (sizesFor people.length (numGroups people.length q))) = _
    rw [if_neg (not_lt.mpr hq)]
  set n := people.length with hn0
  set sizes := sizesFor n (numGroups n q) with hsizes
  have hg0 : 0 < numGroups n q := numGroups_pos n q
  have hglen : sizes.length = numGroups n q := sizesFor_length _ _
  have hsum_sizes : sizes.sum = n := sizesFor_sum n _ hg0
  set counts := countsOf people shR with hcounts
  have hcsum : counts.sum = n := counts_sum_eq people shR hshR
  have hsum : sizes.sum = counts.sum := by rw [hsum_sizes, hcsum]
  obtain ⟨inv, hex, hdef⟩ := apportion_exact sizes counts shC hsum
  have hkr : counts.length = (rolesOf people).length := by
    rw [hcounts]
    unfold countsOf
    rw [List.length_map]
  -- Every entry of the quota table row j at column gi is the final target.
  have hentry : ∀ j, j < counts.length → ∀ gi, gi < sizes.length →
      ((computeRoleTargets sizes counts shC).getD j []).getD gi 0 =
        (apportion sizes counts shC).1.targets j gi := by
    intro j hj gi hgi
    rw [computeRoleTargets_getD hj, getD_map_range _ _ _ hgi]
  -- The per-role needs sum to the role's pool length.
  have hneed_sum : ∀ j, j < counts.length →
      ((List.range sizes.length).map (fun gi =>
        (((computeRoleTargets sizes counts shC).getD j []).getD gi 0).toNat)).sum =
        counts.getD j 0 := by
    intro j hj
    have hcast : (((List.range sizes.length).map (fun gi =>
        (((computeRoleTargets sizes counts shC).getD j []).getD gi 0).toNat)).sum : ℤ) =
        (counts.getD j 0 : ℤ) := by
      rw [listMapRange_sum, Nat.cast_sum]
      have hstep : ∀ gi ∈ Finset.range sizes.length,
          (((((computeRoleTargets sizes counts shC).getD j []).getD gi 0).toNat : ℕ) : ℤ) =
            (apportion sizes counts shC).1.targets j gi := by
        intro gi hgi
        rw [hentry j hj gi (Finset.mem_range.mp hgi)]
        exact Int.toNat_of_nonneg (inv.hE j gi)
      rw [Finset.sum_congr rfl hstep]
      have hA := inv.hA j
      have hx := hex j
      rw [← sumOver_eq]
      show sumOver sizes.length ((apportion sizes counts shC).1.targets j) = _
      have hcol : colSum sizes.length (apportion sizes counts shC).1 j =
          sumOver sizes.length ((apportion sizes counts shC).1.targets j) := rfl
      omega
    exact_mod_cast hcast
  have hpool_len : ∀ j, j < counts.length →
      (poolsOf people shR ((rolesOf people).getD j "")).length = counts.getD j 0 := by
    intro j hj
    rw [hcounts]
    unfold countsOf
    rw [getD_map_list (rolesOf people) _ "" _ (by omega)]
  have hrowsOK : ∀ row ∈ rowsOf people sizes shR shC, row.2.2.sum = row.2.1.length := by
    intro row hrow
    unfold rowsOf at hrow
    obtain ⟨j, hjmem, rfl⟩ := List.mem_map.mp hrow
    have hj : j < counts.length := by
      rw [hcounts]
      simpa using List.mem_range.mp hjmem
    dsimp only
    rw [hneed_sum j hj, hpool_len j hj]
  obtain ⟨adds, lefts, hA, hLflat, hAlen, hAget⟩ :=
    assignAll_ok_of (rowsOf people sizes shR shC) hrowsOK
  have hrows_len : (rowsOf people sizes shR shC).length = counts.length := by
    unfold rowsOf
    rw [List.length_map, List.length_range, hcounts]
  -- The reassembled groups have exactly the target sizes.
  have hadds_len : adds.length = counts.length := by rw [hAlen, hrows_len]
  have hgetD_len : ∀ j, j < counts.length → (adds.getD j []).length = sizes.length := by
    intro j hj
    have h1 := hAget j
    have h2 : (rowsOf people sizes shR shC).getD j ("", [], []) =
        ((rolesOf people).getD j "", poolsOf people shR ((rolesOf people).getD j ""),
          (List.range sizes.length).map (fun gi =>
            (((computeRoleTargets sizes counts shC).getD j []).getD gi 0).toNat)) := by
      unfold rowsOf
      exact getD_map_range _ _ _ (by exact hj)
    rw [h2] at h1
    have h3 := congrArg List.length h1
    rw [List.length_map] at h3
    simpa using h3
  have glen : ∀ gi, gi < sizes.length →
      ((groupsFromAdds sizes.length adds).getD gi []).length = sizes.getD gi 0 := by
    intro gi hgi
    have h1 : (groupsFromAdds sizes.length adds).getD gi [] =
        (adds.map (fun a => a.getD gi [])).flatten := by
      unfold groupsFromAdds
      exact getD_map_range _ _ _ hgi
    rw [h1, List.length_flatten, List.map_map,
      listMap_sum_getD adds ([] : List (List Person))]
    have hcast : (((∑ j ∈ Finset.range adds.length,
        (Function.comp List.length (fun a => a.getD gi []) (adds.getD j []))) : ℕ) : ℤ) =
        (sizes.getD gi 0 : ℤ) := by
      rw [Nat.cast_sum]
      have hstep : ∀ j ∈ Finset.range adds.length,
          (((Function.comp List.length (fun a => a.getD gi []) (adds.getD j [])) : ℕ) : ℤ) =
            (apportion sizes counts shC).1.targets j gi := by
        intro j hjm
        have hj : j < counts.length := by
          rw [← hadds_len]
          exact Finset.mem_range.mp hjm
        show ((((adds.getD j []).getD gi []).length : ℕ) : ℤ) = _
        have h1 := hAget j
        have h2 : (rowsOf people sizes shR shC).getD j ("", [], []) =
            ((rolesOf people).getD j "", poolsOf people shR ((rolesOf people).getD j ""),
              (List.range sizes.length).map (fun gi =>
                (((computeRoleTargets sizes counts shC).getD j []).getD gi 0).toNat)) := by
          unfold rowsOf
          exact getD_map_range _ _ _ (by exact hj)
        rw [h2] at h1
        dsimp only at h1
        have h4 : ((adds.getD j []).map List.length).getD gi 0 =
            ((List.range sizes.length).map (fun gi =>
              (((computeRoleTargets sizes counts shC).getD j []).getD gi 0).toNat)).getD
              gi 0 := by rw [h1]
        rw [getD_map_list (adds.getD j []) _ ([] : List Person) _
            (by rw [hgetD_len j hj]; exact hgi),
          getD_map_range _ _ _ hgi] at h4
        rw [h4, hentry j hj gi hgi]
        exact Int.toNat_of_nonneg (inv.hE j gi)
      rw [Finset.sum_congr rfl hstep, hadds_len, ← sumOver_eq]
      have hB := inv.hB gi
      have hd := hdef gi
      have hrow : rowSum counts.length (apportion sizes counts shC).1 gi =
          sumOver counts.length (fun r => (apportion sizes counts shC).1.targets r gi) := rfl
      omega
    exact_mod_cast hcast
  -- Leftovers are empty, so distribution is the identity.
  have hshLnil : shL lefts.flatten = [] := by
    rw [hLflat]
    exact (hshL []).eq_nil
  have hdist : distAux (groupsFromAdds sizes.length adds) sizes (shL lefts.flatten) =
      (groupsFromAdds sizes.length adds, []) := by
    rw [hshLnil]
    exact distAux_nil_lo _ _
  -- The reassembled groups' length list is exactly `sizes`.
  have hmap_len : (groupsFromAdds sizes.length adds).map (fun x => x.length) = sizes := by
    unfold groupsFromAdds
    rw [List.map_map]
    have hstep : ∀ gi ∈ List.range sizes.length,
        (Function.comp (fun x => List.length x) (fun gi =>
          (adds.map (fun a => a.getD gi [])).flatten)) gi = sizes.getD gi 0 := by
      intro gi hgi
      have h1 : (groupsFromAdds sizes.length adds).getD gi [] =
          (adds.map (fun a => a.getD gi [])).flatten := by
        unfold groupsFromAdds
        exact getD_map_range _ _ _ (List.mem_range.mp hgi)
      have := glen gi (List.mem_range.mp hgi)
      rw [h1] at this
      exact this
    rw [List.map_congr_left hstep]
    have h2 := mapRange_getD_eq_map sizes 0 (fun s => s)
    rw [h2, List.map_id']
  have hcheck1 : ((List.range sizes.length).all
      (fun gi => ((groupsFromAdds sizes.length adds).getD gi []).length ==
        sizes.getD gi 0)) = true := by
    rw [List.all_eq_true]
    intro gi hgi
    exact beq_iff_eq.mpr (glen gi (List.mem_range.mp hgi))
  have hcheck2 : (((groupsFromAdds sizes.length adds).map (fun x => x.length)).sum == n)
      = true := by
    rw [hmap_len]
    exact beq_iff_eq.mpr hsum_sizes
  have hfin : finishGroups n sizes (groupsFromAdds sizes.length adds) =
      .ok (groupsFromAdds sizes.length adds,
        annotatedOf sizes.length (groupsFromAdds sizes.length adds)) := by
    unfold finishGroups
    rw [hcheck1, hcheck2]
    rfl
  have hrun : allocateGroups people (some q) shR shC shL =
      .ok (groupsFromAdds sizes.length adds,
        annotatedOf sizes.length (groupsFromAdds sizes.length adds)) := by
    unfold allocateGroups
    rw [hsz]
    show allocateCore people sizes shR shC shL = _
    unfold allocateCore
    rw [hA]
    show finishGroups people.length sizes
      (distAux (groupsFromAdds sizes.length adds) sizes (shL lefts.flatten)).1 = _
    rw [hdist]
    exact hfin
  refine ⟨groupsFromAdds sizes.length adds,
    annotatedOf sizes.length (groupsFromAdds sizes.length adds), hrun, hsz, hmap_len, ?_,
    ?_, ?_⟩
  · rw [List.length_flatten, hmap_len]
    exact hsum_sizes
  · rw [hrun]
    intro h
    cases h
  · rw [hrun]
    intro h
    cases h

/-- Witness for `allocate_succeeds` on a three-person roster with two
roles and desired size 2. -/
theorem allocate_succeeds_witness :
    (2 ≤ ([Person.mk "a" "A", Person.mk "b" "B", Person.mk "c" "A"] : List Person).length ∧
      2 ≤ (2 : ℚ)) ∧
    ∃ gr ann, allocateGroups [Person.mk "a" "A", Person.mk "b" "B", Person.mk "c" "A"]
        (some 2) (fun _ l => l) (fun l => l) (fun l => l) = .ok (gr, ann) ∧
      computeGroupSizes 3 (some 2) = .ok (sizesFor 3 (numGroups 3 2)) ∧
      gr.map (fun x => x.length) = sizesFor 3 (numGroups 3 2) ∧
      gr.flatten.length = 3 ∧
      allocateGroups [Person.mk "a" "A", Person.mk "b" "B", Person.mk "c" "A"]
        (some 2) (fun _ l => l) (fun l => l) (fun l => l) ≠ .error .groupSizeMismatch ∧
      allocateGroups [Person.mk "a" "A", Person.mk "b" "B", Person.mk "c" "A"]
        (some 2) (fun _ l => l) (fun l => l) (fun l => l) ≠ .error .notAllAssigned :=
  ⟨⟨by decide, by norm_num⟩,
    allocate_succeeds [Person.mk "a" "A", Person.mk "b" "B", Person.mk "c" "A"] 2
      (fun _ l => l) (fun l => l) (fun l => l) (by decide) (by norm_num)
      (fun _ l => List.Perm.refl l) (fun l => List.Perm.refl l)⟩
